import Mathlib

/-!
Verification development for the skill-bundle converter
(src/claude-code/skills/instruction-creator/scripts/convert_to_claudeai.py).

The script is a linear pipeline: validate a source directory, rewrite the
primary document (YAML frontmatter + body), copy reference files subject to
exclusion and size rules, archive the staging directory into a zip, and
report changes/warnings.  This file gives a shallow embedding of that
pipeline and proves/refutes the frozen claims about it.

Modelling conventions:
- paths are lists of components (`FPath`); `pathlib.Path.resolve()` is the
  identity (paths are taken already canonical);
- file contents are strings; a file's size is the length of its rendered
  content (bytes are approximated by characters);
- the filesystem is a pair of a directory list and a file association list;
  the traversal order of `rglob` is the order of the file list;
- Python regexes are embedded as sequences of items (literal char, greedy
  plus/star over a character class, lazy star), with a backtracking matcher
  implementing the leftmost/greedy-preference semantics of `re`;
- `\w` is modelled by ASCII alphanumerics plus underscore (the concrete
  characters the proofs rely on agree with Python's class);
- change/warning log entries (Python f-strings) are modelled by inductive
  constructors carrying the interpolated values;
- the two possible YAML libraries (ruamel / PyYAML) are abstracted as a
  `YamlImpl` structure with `load` and `dump`; theorems quantify over it;
- unexpected runtime exceptions inside the try-block of
  `SkillConverter.convert` are modelled by an optional injected fault naming
  the step (transform / copy / archive) at which the body raises.
-/

/-! ## Regex engine

A pattern is a list of items.  All patterns in the source are sequences of
literal characters and quantified character classes, so this item language
covers them exactly:

- lit c        : the literal character c
- plus p       : one-or-more characters satisfying p, greedy (backtracking)
- star p       : zero-or-more characters satisfying p, greedy (backtracking)
- lazyStar p   : zero-or-more characters satisfying p, lazy (backtracking)
-/

inductive RItem where
  | lit : Char → RItem
  | plus : (Char → Bool) → RItem
  | star : (Char → Bool) → RItem
  | lazyStar : (Char → Bool) → RItem

/-- Candidate consumption lengths for a greedy quantifier whose maximal run
has length n, in the preference order of a backtracking engine: n, n-1, ..., 1. -/
def downFrom (n : Nat) : List Nat := (List.range' 1 n).reverse

/-- Candidate consumption lengths for a lazy quantifier: 0, 1, ..., n. -/
def upTo (n : Nat) : List Nat := List.range (n + 1)

/-- Backtracking matcher, anchored at the head of s.  Returns the number of
characters consumed by the preferred (Python-semantics) match, if any.
Quantifiers try candidate lengths in preference order; the first candidate
for which the rest of the pattern matches wins, exactly as in CPython's
backtracking engine. -/
def matchItems : List RItem → List Char → Option Nat
  | [], _ => some 0
  | .lit c :: rest, s =>
      match s with
      | [] => none
      | x :: s2 => if x = c then (matchItems rest s2).map (· + 1) else none
  | .plus p :: rest, s =>
      (downFrom (s.takeWhile p).length).findSome?
        (fun j => (matchItems rest (s.drop j)).map (j + ·))
  | .star p :: rest, s =>
      (downFrom (s.takeWhile p).length ++ [0]).findSome?
        (fun j => (matchItems rest (s.drop j)).map (j + ·))
  | .lazyStar p :: rest, s =>
      (upTo (s.takeWhile p).length).findSome?
        (fun j => (matchItems rest (s.drop j)).map (j + ·))

/-- Leftmost match: the first position (scanning left to right) at which the
pattern matches, together with the match length — the semantics of
re.search for the first match. -/
def findMatch (pat : List RItem) : List Char → Option (Nat × Nat)
  | [] => (matchItems pat []).map (fun n => (0, n))
  | x :: s2 =>
    match matchItems pat (x :: s2) with
    | some n => some (0, n)
    | none => (findMatch pat s2).map (fun qn => (qn.1 + 1, qn.2))

/-- Fueled worker for `subAll`.  Every pattern in the source consumes at
least one character per match, so fuel `s.length + 1` always suffices. -/
def subFuel (pat : List RItem) (repl : List Char) : Nat → List Char → List Char
  | 0, s => s
  | f + 1, s =>
    match findMatch pat s with
    | none => s
    | some (q, n) => s.take q ++ repl ++ subFuel pat repl f (s.drop (q + n))

/-- Replacement of every non-overlapping leftmost match by a literal string:
the semantics of re.sub for the source's patterns. -/
def subAll (pat : List RItem) (repl : List Char) (s : List Char) : List Char :=
  subFuel pat repl (s.length + 1) s

/-- Fueled worker for `countAll`. -/
def countFuel (pat : List RItem) : Nat → List Char → Nat
  | 0, _ => 0
  | f + 1, s =>
    match findMatch pat s with
    | none => 0
    | some (q, n) => 1 + countFuel pat f (s.drop (q + n))

/-- Number of non-overlapping leftmost matches: the semantics of
len(re.findall(...)) for the source's (group-free) patterns. -/
def countAll (pat : List RItem) (s : List Char) : Nat :=
  countFuel pat (s.length + 1) s

/-! ## The source's patterns -/

/-- ASCII model of the regex class \w (word character). -/
def isW (c : Char) : Bool := c.isAlphanum || c = '_'

/-- A run of literal characters. -/
def litRun (w : List Char) : List RItem := w.map RItem.lit

/-- The backtick character (written via its code point). -/
def btick : Char := Char.ofNat 96

/-- Pattern mcp__\w+__\w+ (third removal pattern, line 59). -/
def P3 : List RItem := litRun "mcp__".data ++ [.plus isW] ++ litRun "__".data ++ [.plus isW]

/-- Pattern mcp__\w+__\w+\([^)]*\) (second removal pattern, line 58). -/
def P2 : List RItem := P3 ++ [.lit '('] ++ [.star (fun c => !(c = ')'))] ++ [.lit ')']

/-- Pattern for the first removal rule (line 57): the second pattern wrapped
in backticks. -/
def P1 : List RItem := [.lit btick] ++ P2 ++ [.lit btick]

/-- Pattern Bash\([^)]+\) (fourth removal pattern, line 62). -/
def P4 : List RItem := litRun "Bash(".data ++ [.plus (fun c => !(c = ')'))] ++ [.lit ')']

/-- Pattern scripts/\w+\.py (warning pattern, line 71). -/
def W1 : List RItem := litRun "scripts/".data ++ [.plus isW] ++ litRun ".py".data

/-- Pattern scripts/\w+\.sh (warning pattern, line 72). -/
def W2 : List RItem := litRun "scripts/".data ++ [.plus isW] ++ litRun ".sh".data

/-- Pattern for a fenced bash code block (line 73): three backticks,
"bash", newline, a lazy any-character run (DOTALL), three backticks. -/
def W3 : List RItem :=
  [.lit btick, .lit btick, .lit btick] ++ litRun "bash\n".data ++
    [.lazyStar (fun _ => true)] ++ [.lit btick, .lit btick, .lit btick]

/-- Pattern for a fenced python code block (line 74). -/
def W4 : List RItem :=
  [.lit btick, .lit btick, .lit btick] ++ litRun "python\n".data ++
    [.lazyStar (fun _ => true)] ++ [.lit btick, .lit btick, .lit btick]

/-! ## Report model -/

/-- YAML-representable values (the fragment needed by the claims). -/
inductive YVal where
  | str : String → YVal
  | boolV : Bool → YVal
  | intV : Int → YVal
deriving DecidableEq, Repr

/-- A YAML frontmatter mapping: keys paired with values, in document order. -/
abbrev Frontmatter := List (String × YVal)

/-- Path in the modelled filesystem: a list of components. -/
abbrev FPath := List String

/-- One entry of the converter's change log.  Each constructor models one of
the f-strings appended to self.changes, carrying the interpolated values:

- removedField f v    : "Removed YAML field: {field}={removed_value}" (line 245)
- replacedPattern n p : "Replaced {n} instances of pattern: {pattern[:30]}..." (line 258)
- bundled n sz        : "Bundled {n} reference files ({sz/1024:.1f}KB)" (line 308)
- createdZip z sz     : "Created zip: {zip_name} ({sz/1024:.1f}KB)" (line 353)
-/
inductive Change where
  | removedField : String → YVal → Change
  | replacedPattern : Nat → String → Change
  | bundled : Nat → Nat → Change
  | createdZip : String → Nat → Change
deriving DecidableEq, Repr

/-- One entry of the converter's warning list, modelling the f-strings passed
to self.warn:

- tooLarge sz rel  : "File too large ({sz/1024/1024:.1f}MB): {rel_path}" (line 292)
- totalOver sz     : "Total size ({sz/1024/1024:.1f}MB) exceeds recommended 10MB" (line 306)
- patternFound n d : "Found {n} {description} - may need manual review" (line 265)
-/
inductive Warning where
  | tooLarge : Nat → FPath → Warning
  | totalOver : Nat → Warning
  | patternFound : Nat → String → Warning
deriving DecidableEq, Repr

/-! ## Content cleaning (SkillConverter.clean_content, lines 250-267) -/

/-- One removal rule: pattern, its regex source text (used in the change
message), and the literal replacement. -/
structure CCPat where
  pat : List RItem
  src : String
  repl : String

/-- SkillConverter.CC_PATTERNS (lines 55-67), in order. -/
def CC_PATTERNS : List CCPat :=
  [ ⟨P1, "`mcp__\\w+__\\w+\\([^)]*\\)`", "[MCP tool reference removed]"⟩,
    ⟨P2, "mcp__\\w+__\\w+\\([^)]*\\)", "[MCP tool reference removed]"⟩,
    ⟨P3, "mcp__\\w+__\\w+", "[MCP tool]"⟩,
    ⟨P4, "Bash\\([^)]+\\)", "[CLI command]"⟩ ]

/-- One warning rule: pattern and its description. -/
structure WPat where
  pat : List RItem
  descr : String

/-- SkillConverter.WARNING_PATTERNS (lines 70-75), in order. -/
def WARNING_PATTERNS : List WPat :=
  [ ⟨W1, "Python script reference"⟩,
    ⟨W2, "Shell script reference"⟩,
    ⟨W3, "Bash code block"⟩,
    ⟨W4, "Python code block"⟩ ]

/-- The removal-pattern loop of clean_content (lines 254-259): for each rule
in order, if the pattern has at least one match, log one change with the
match count and replace every match. -/
def applyRemovals (content : List Char) : List Char × List Change :=
  CC_PATTERNS.foldl
    (fun acc cp =>
      let n := countAll cp.pat acc.1
      if n ≠ 0 then (subAll cp.pat cp.repl.data acc.1, acc.2 ++ [Change.replacedPattern n cp.src])
      else acc)
    (content, [])

/-- The warning-scan loop of clean_content (lines 262-265), applied to the
already-cleaned body: matches are only counted, never modified. -/
def warningScan (content : List Char) : List Warning :=
  WARNING_PATTERNS.foldl
    (fun ws wp =>
      let n := countAll wp.pat content
      if n ≠ 0 then ws ++ [Warning.patternFound n wp.descr] else ws)
    []

/-- SkillConverter.clean_content (lines 250-267): apply the removal rules in
order, then scan the result for warning patterns. -/
def clean_content (content : String) : String × List Change × List Warning :=
  let r := applyRemovals content.data
  (String.mk r.1, r.2, warningScan r.1)

/-! ## Frontmatter handling -/

/-- Abstraction of the YAML library used by the script (ruamel.yaml or
PyYAML, lines 31-43): load parses a mapping (none models a document that is
not a mapping / empty), dump serialises one. -/
structure YamlImpl where
  load : String → Option Frontmatter
  dump : Frontmatter → String

/-- Prefix test on character lists. -/
def chStarts : List Char → List Char → Bool
  | [], _ => true
  | _ :: _, [] => false
  | a :: as, b :: bs => a == b && chStarts as bs

/-- Leftmost occurrence index of needle in hay. -/
def findSub (needle : List Char) : List Char → Option Nat
  | [] => if chStarts needle [] then some 0 else none
  | x :: t => if chStarts needle (x :: t) then some 0 else (findSub needle t).map (· + 1)

/-- Suffix test on character lists. -/
def chEnds (suf s : List Char) : Bool := chStarts suf.reverse s.reverse

/-- Joined string form of a path, with "/" separators (str(path)). -/
def joinPath : FPath → String
  | [] => ""
  | [x] => x
  | x :: rest => x ++ "/" ++ joinPath rest

/-- The frontmatter delimiter convention of parse_frontmatter (line 220):
re.match(r'---\n(.*?)\n---\n(.*)$', content, re.DOTALL).  The file must
begin with a marker line; the lazy group ends at the first later occurrence
of a newline-delimited marker line; the rest is the body. -/
def splitFM (content : List Char) : Option (List Char × List Char) :=
  if chStarts "---\n".data content then
    let rest := content.drop 4
    match findSub "\n---\n".data rest with
    | some i => some (rest.take i, rest.drop (i + 5))
    | none => none
  else none

/-- SkillConverter.parse_frontmatter (lines 218-236): split the document
into frontmatter and body; absence of the delimiter structure yields an
empty mapping with the whole content as body; a frontmatter that loads to
nothing is also the empty mapping (the "frontmatter or {}" at line 233). -/
def parse_frontmatter (yi : YamlImpl) (content : String) : Frontmatter × String :=
  match splitFM content.data with
  | some fb => ((yi.load (String.mk fb.1)).getD [], String.mk fb.2)
  | none => ([], content)

/-- SkillConverter.REMOVE_YAML_FIELDS (lines 50-52). -/
def REMOVE_YAML_FIELDS : List String := ["allowed-tools"]

/-- Removal of a key from a mapping (dict.pop). -/
def removeKey (fm : Frontmatter) (field : String) : Frontmatter :=
  fm.filter (fun kv => !(kv.1 == field))

/-- SkillConverter.clean_frontmatter (lines 238-248): remove each field of
REMOVE_YAML_FIELDS that is present, unless the keep flag is set; record each
removal with the removed value. -/
def clean_frontmatter (keep_tools : Bool) (fm : Frontmatter) : Frontmatter × List Change :=
  REMOVE_YAML_FIELDS.foldl
    (fun acc field =>
      match acc.1.lookup field with
      | some v =>
          if keep_tools then acc
          else (removeKey acc.1 field, acc.2 ++ [Change.removedField field v])
      | none => acc)
    (fm, [])

/-! ## Filesystem model -/

/-- File data: a plain text file, or a zip archive written by the converter.
A zip is modelled by its list of (internal path, entry content) pairs; its
byte content is the deterministic rendering produced by FData.render. -/
inductive FData where
  | text : String → FData
  | zipArc : List (FPath × String) → FData
deriving DecidableEq, Repr

/-- Rendering of file data to a byte string (bytes are approximated by
characters; a zip renders as the concatenation of its entries). -/
def FData.render : FData → String
  | .text s => s
  | .zipArc es => es.foldl (fun a kv => a ++ String.intercalate "/" kv.1 ++ kv.2) ""

/-- File size in bytes (stat().st_size), modelled as rendered length. -/
def FData.size (d : FData) : Nat := d.render.length

/-- Does the first path stand at the start of (or equal) the second? -/
def startsWithPath : FPath → FPath → Bool
  | [], _ => true
  | _ :: _, [] => false
  | a :: as, b :: bs => a == b && startsWithPath as bs

/-- All nonempty ancestor paths of a path, the path itself included. -/
def ancestors : FPath → List FPath
  | [] => []
  | x :: rest => [x] :: (ancestors rest).map (fun q => x :: q)

/-- The modelled filesystem: a set of existing directories and an
association list of files; the list order of files is the traversal order
of rglob. -/
structure FS where
  dirs : List FPath
  files : List (FPath × FData)
deriving DecidableEq, Repr

/-- Does p exist as a directory? -/
def FS.isDir (fs : FS) (p : FPath) : Bool := fs.dirs.contains p

/-- Content of the file at p, if any. -/
def FS.lookupFile (fs : FS) (p : FPath) : Option FData :=
  (fs.files.find? (fun kv => kv.1 == p)).map (fun kv => kv.2)

/-- Does p exist as a file? -/
def FS.isFile (fs : FS) (p : FPath) : Bool := (fs.lookupFile p).isSome

/-- Path.exists(): a directory or a file. -/
def FS.pexists (fs : FS) (p : FPath) : Bool := fs.isDir p || fs.isFile p

/-- mkdir(parents=True, exist_ok=True): create the directory and all its
ancestors (those not already present). -/
def FS.mkdirParents (fs : FS) (p : FPath) : FS :=
  { fs with dirs := fs.dirs ++ (ancestors p).filter (fun d => !(fs.dirs.contains d)) }

/-- shutil.rmtree: remove the directory and everything below it. -/
def FS.rmtree (fs : FS) (p : FPath) : FS :=
  { dirs := fs.dirs.filter (fun d => !(startsWithPath p d)),
    files := fs.files.filter (fun kv => !(startsWithPath p kv.1)) }

/-- write_text / copy2 target effect: (over)write the file at p. -/
def FS.writeFile (fs : FS) (p : FPath) (d : FData) : FS :=
  { fs with files := (p, d) :: fs.files.filter (fun kv => !(kv.1 == p)) }

/-- Path.unlink: remove the file at p. -/
def FS.removeFile (fs : FS) (p : FPath) : FS :=
  { fs with files := fs.files.filter (fun kv => !(kv.1 == p)) }

/-- All files strictly below the directory p, in traversal order: the
rglob("*") walk filtered by is_file(). -/
def FS.filesUnder (fs : FS) (p : FPath) : List (FPath × FData) :=
  fs.files.filter (fun kv => startsWithPath p kv.1 && !(kv.1 == p))

/-! ## Converter configuration and state -/

/-- Constructor arguments of SkillConverter (lines 93-107). -/
structure Config where
  skill_path : FPath
  output_dir : FPath
  verbose : Bool
  dry_run : Bool
  keep_tools : Bool
  inline_refs : Bool
deriving DecidableEq, Repr

/-- Path.name: the final component. -/
def pathName (p : FPath) : String := p.getLast?.getD ""

/-- The staging directory ".{skill_name}_temp" under the output directory
(line 138). -/
def tempDirOf (cfg : Config) : FPath :=
  cfg.output_dir ++ ["." ++ pathName cfg.skill_path ++ "_temp"]

/-- The staging subdirectory named after the skill (line 139). -/
def convertedDirOf (cfg : Config) : FPath :=
  tempDirOf cfg ++ [pathName cfg.skill_path]

/-- Mutable run state: the filesystem plus the converter's accumulators
(self.changes, self.warnings) and the lines printed to stdout. -/
structure St where
  fs : FS
  changes : List Change
  warnings : List Warning
  printed : List String
deriving DecidableEq, Repr

/-- The step of the try-block at which an injected unexpected exception is
raised: before convert_skill_md, before bundle_references, or before
create_zip. -/
inductive FailStep where
  | transform
  | copy
  | archive
deriving DecidableEq, Repr

/-- Message of the fault injected at step s, if any. -/
def injAt (s : FailStep) (inj : Option (FailStep × String)) : Option String :=
  match inj with
  | some im => if im.1 = s then some im.2 else none
  | none => none

/-! ## Pipeline steps -/

/-- SkillConverter.validate_skill (lines 170-185): the source path must
exist, be a directory, and contain a SKILL.md entry.  Returns the verdict
and the error lines printed. -/
def validate_skill (cfg : Config) (fs : FS) : Bool × List String :=
  if !(fs.pexists cfg.skill_path) then
    (false, ["Error: Skill path does not exist: " ++ String.intercalate "/" cfg.skill_path])
  else if !(fs.isDir cfg.skill_path) then
    (false, ["Error: Skill path is not a directory: " ++ String.intercalate "/" cfg.skill_path])
  else if !(fs.pexists (cfg.skill_path ++ ["SKILL.md"])) then
    (false, ["Error: SKILL.md not found in: " ++ String.intercalate "/" cfg.skill_path])
  else (true, [])

/-- SkillConverter.convert_skill_md (lines 187-216): read SKILL.md, split
frontmatter and body, clean both, reconstruct with the dumped frontmatter
between marker lines, and (unless dry-run) write the result into the staging
directory.  A failing read (for instance SKILL.md existing as a directory,
which passes validation) raises: modelled by the error branch. -/
def convert_skill_md (yi : YamlImpl) (cfg : Config) (outDir : FPath) (st : St) :
    Except String St :=
  match st.fs.lookupFile (cfg.skill_path ++ ["SKILL.md"]) with
  | none => .error "could not read SKILL.md"
  | some (.zipArc _) => .error "could not read SKILL.md"
  | some (.text content) =>
    let fb := parse_frontmatter yi content
    let cf := clean_frontmatter cfg.keep_tools fb.1
    let cc := clean_content fb.2
    let fmStr := yi.dump cf.1
    let newContent := "---\n" ++ fmStr ++ "---\n" ++ cc.1
    let st1 : St := { st with changes := st.changes ++ cf.2 ++ cc.2.1,
                              warnings := st.warnings ++ cc.2.2 }
    let st2 : St :=
      if cfg.dry_run then st1
      else { st1 with fs := st1.fs.writeFile (outDir ++ ["SKILL.md"]) (.text newContent) }
    .ok st2

/-- SkillConverter.EXCLUDE_PATTERNS (lines 78-86), in order. -/
def EXCLUDE_PATTERNS : List String :=
  ["scripts/", "*.pyc", "__pycache__/", ".DS_Store", "*.env", "*.key", "*.pem"]

/-- fnmatch.fnmatch for the star-suffix patterns of EXCLUDE_PATTERNS
(posix case-sensitive semantics): the name must end with the text after
the star. -/
def fnmatchStar (pattern name : String) : Bool := chEnds (pattern.data.drop 1) name.data

/-- SkillConverter.should_exclude (lines 310-329), applied to the path
relative to the bundle root: a rule ending in "/" excludes paths whose
joined string form starts with the rule minus its slash; a rule containing
a star excludes matching base names; otherwise the rule must equal the
joined path or the base name.  First matching rule wins. -/
def should_exclude (path : FPath) : Bool :=
  let path_str := joinPath path
  EXCLUDE_PATTERNS.any (fun pattern =>
    if chEnds "/".data pattern.data then chStarts pattern.data.dropLast path_str.data
    else if pattern.data.contains '*' then fnmatchStar pattern (pathName path)
    else path_str == pattern || pathName path == pattern)

/-- Per-file maximum size (line 89): 30 MiB. -/
def MAX_SINGLE_FILE : Nat := 30 * 1024 * 1024

/-- Advisory total-size threshold (line 91): 10 MiB. -/
def WARN_TOTAL_SIZE : Nat := 10 * 1024 * 1024

/-- The body of the walk loop of bundle_references (lines 281-303), as a
fold step over the accumulator (state, total size, files copied). -/
def bundleStep (cfg : Config) (outDir : FPath) (acc : St × Nat × Nat) (rf : FPath × FData) :
    St × Nat × Nat :=
  let rel : FPath := rf.1.drop cfg.skill_path.length
  if should_exclude rel then acc
  else if rf.2.size > MAX_SINGLE_FILE then
    ({ acc.1 with warnings := acc.1.warnings ++ [Warning.tooLarge rf.2.size rel] },
      acc.2.1, acc.2.2)
  else
    let st1 := acc.1
    let st2 :=
      if cfg.dry_run then st1
      else { st1 with
               fs := (st1.fs.mkdirParents (outDir ++ rel).dropLast).writeFile
                       (outDir ++ rel) rf.2 }
    (st2, acc.2.1 + rf.2.size, acc.2.2 + 1)

/-- SkillConverter.bundle_references (lines 269-308): if the bundle has a
"references" entry, walk every file below it (snapshot of the traversal at
entry), folding bundleStep over the walk; then warn if the total exceeds the
advisory threshold and append the single bundling summary change. -/
def bundle_references (cfg : Config) (outDir : FPath) (st : St) : St :=
  let refs_dir := cfg.skill_path ++ ["references"]
  if !(st.fs.pexists refs_dir) then st
  else
    let walk := st.fs.filesUnder refs_dir
    let step := walk.foldl (bundleStep cfg outDir) (st, 0, 0)
    let st3 := step.1
    let total := step.2.1
    let copied := step.2.2
    let st4 :=
      if total > WARN_TOTAL_SIZE then
        { st3 with warnings := st3.warnings ++ [Warning.totalOver total] }
      else st3
    { st4 with changes := st4.changes ++ [Change.bundled copied total] }

/-- SkillConverter.create_zip (lines 331-355): in dry-run, only return the
path that would be produced; otherwise remove any pre-existing zip, write a
zip whose entries are the files below the staging skill directory under
their staging-relative names (relative to the temp directory, hence
including the skill-name component), and log the creation. -/
def create_zip (cfg : Config) (temp_dir : FPath) (st : St) : FPath × St :=
  let zip_name := pathName cfg.skill_path ++ ".zip"
  let zip_path := cfg.output_dir ++ [zip_name]
  if cfg.dry_run then (zip_path, st)
  else
    let st1 := if st.fs.pexists zip_path then { st with fs := st.fs.removeFile zip_path } else st
    let skill_dir := temp_dir ++ [pathName cfg.skill_path]
    let entries := (st1.fs.filesUnder skill_dir).map
      (fun kv => (kv.1.drop temp_dir.length, kv.2.render))
    let zdata := FData.zipArc entries
    let st2 := { st1 with fs := st1.fs.writeFile zip_path zdata }
    let st3 := { st2 with changes := st2.changes ++ [Change.createdZip zip_name zdata.size] }
    (zip_path, st3)

/-- The finally-block of SkillConverter.convert (lines 165-168): remove the
staging directory if it exists — except in dry-run mode. -/
def finallyCleanup (cfg : Config) (st : St) : St :=
  if st.fs.pexists (tempDirOf cfg) && !cfg.dry_run then
    { st with fs := st.fs.rmtree (tempDirOf cfg) }
  else st

/-- Staging preparation (lines 142-145): remove any previous staging
directory, then create the staging skill directory — both unconditionally,
dry-run included. -/
def prepStaging (cfg : Config) (st : St) : St :=
  let st1 :=
    if st.fs.pexists (tempDirOf cfg) then { st with fs := st.fs.rmtree (tempDirOf cfg) } else st
  { st1 with fs := st1.fs.mkdirParents (convertedDirOf cfg) }

/-- The try-block of SkillConverter.convert (lines 147-159): transform,
copy, archive.  Unexpected exceptions (injected faults and read failures)
surface as the error case, carrying the message and the state at the point
of the raise. -/
def convertBody (yi : YamlImpl) (cfg : Config) (inj : Option (FailStep × String)) (st2 : St) :
    Except (String × St) (FPath × St) :=
  match injAt .transform inj with
  | some m => .error (m, st2)
  | none =>
    match convert_skill_md yi cfg (convertedDirOf cfg) st2 with
    | .error m => .error (m, st2)
    | .ok st3 =>
      match injAt .copy inj with
      | some m => .error (m, st3)
      | none =>
        let st4 := bundle_references cfg (convertedDirOf cfg) st3
        match injAt .archive inj with
        | some m => .error (m, st4)
        | none => .ok (create_zip cfg (tempDirOf cfg) st4)

/-- The opening print of SkillConverter.convert (line 131). -/
def stPrint (cfg : Config) (st : St) : St :=
  { st with printed := st.printed ++ ["Converting skill: " ++ pathName cfg.skill_path] }

/-- SkillConverter.convert (lines 124-168): validate; prepare the staging
directory; run the try-block, catching its exceptions and reporting them;
always run the finally-block.  Returns the zip path on success, none on
failure.  The report step (lines 357-370) only prints the accumulated
lists and is not modelled beyond them. -/
def convert (yi : YamlImpl) (cfg : Config) (inj : Option (FailStep × String)) (st : St) :
    Option FPath × St :=
  let va := validate_skill cfg st.fs
  if !va.1 then (none, { stPrint cfg st with printed := (stPrint cfg st).printed ++ va.2 })
  else
    match convertBody yi cfg inj (prepStaging cfg (stPrint cfg st)) with
    | .ok zs => (some zs.1, finallyCleanup cfg zs.2)
    | .error ms =>
      let stE := { ms.2 with printed := ms.2.printed ++ ["Error during conversion: " ++ ms.1] }
      (none, finallyCleanup cfg stE)

/-- Exit code and final state of a run. -/
structure MainResult where
  exitCode : Nat
  st : St
deriving DecidableEq, Repr

/-- main (lines 373-448), after argument parsing: create the output
directory, convert, and exit 0 on success / 1 on failure. -/
def main_run (yi : YamlImpl) (cfg : Config) (inj : Option (FailStep × String)) (st : St) :
    MainResult :=
  let st0 : St := { st with fs := st.fs.mkdirParents cfg.output_dir }
  let r := convert yi cfg inj st0
  match r.1 with
  | some _ => ⟨0, { r.2 with printed := r.2.printed ++ ["Conversion successful!"] }⟩
  | none => ⟨1, { r.2 with printed := r.2.printed ++ ["Conversion failed."] }⟩

/-! ## Concrete inputs used by witnesses and counterexamples -/

/-- Rendering of YAML scalar values used by the concrete implementation. -/
def yvalStr : YVal → String
  | .str s => s
  | .boolV true => "true"
  | .boolV false => "false"
  | .intV n => toString n

/-- Split a character list at newlines (String.splitOn for newline). -/
def splitNl (s : List Char) : List String :=
  match s with
  | [] => [""]
  | c :: rest =>
    let r := splitNl rest
    if c = '\n' then "" :: r
    else String.mk (c :: (r.headD "").data) :: r.tail

/-- Parse one "key: value" line (a line with exactly one ": " separator). -/
def yamlLine (l : String) : Option (String × YVal) :=
  match findSub ": ".data l.data with
  | some i =>
    if (findSub ": ".data (l.data.drop (i + 2))).isSome then none
    else some (String.mk (l.data.take i), .str (String.mk (l.data.drop (i + 2))))
  | none => none

/-- A concrete YAML implementation used to instantiate witnesses: it models
PyYAML's behaviour on the simple one-scalar-per-line mappings appearing in
the concrete bundles below (load splits lines at ": "; dump writes them
back; the empty mapping dumps as "{}" plus newline, as PyYAML does). -/
def yamlTest : YamlImpl where
  load := fun s => some ((splitNl s.data).filterMap yamlLine)
  dump := fun fm =>
    if fm.isEmpty then "\x7b\x7d\n"
    else String.join (fm.map (fun kv => kv.1 ++ ": " ++ yvalStr kv.2 ++ "\n"))

/-- An initial run state over a filesystem, with empty accumulators. -/
def st0 (fs : FS) : St := ⟨fs, [], [], []⟩

/-- SKILL.md of the demo bundle: a frontmatter with one removable field and
one other field, and a body with exactly one removal-pattern instance. -/
def demoSkillMd : String :=
  "---\nallowed-tools: Bash\ntitle: Demo\n---\nUse mcp__git__status() now.\n"

/-- The demo bundle: a skill directory "demo" containing SKILL.md and one
small reference file. -/
def fsDemo : FS where
  dirs := [["skills"], ["skills", "demo"], ["skills", "demo", "references"], ["out"]]
  files :=
    [ (["skills", "demo", "SKILL.md"], .text demoSkillMd),
      (["skills", "demo", "references", "data.txt"], .text "hello") ]

/-- Configuration of a non-dry-run conversion of the demo bundle. -/
def cfgDemo : Config where
  skill_path := ["skills", "demo"]
  output_dir := ["out"]
  verbose := false
  dry_run := false
  keep_tools := false
  inline_refs := false

/-- The same conversion in dry-run mode. -/
def cfgDemoDry : Config := { cfgDemo with dry_run := true }

/-- A bundle whose references contain a file bearing the staging
directory's own temporary name. -/
def fsTempName : FS where
  dirs := [["skills"], ["skills", "demo"], ["skills", "demo", "references"], ["out"]]
  files :=
    [ (["skills", "demo", "SKILL.md"], .text "---\ntitle: Demo\n---\nplain body\n"),
      (["skills", "demo", "references", ".demo_temp"], .text "payload") ]

/-- A bundle with a file below references/scripts/, the directory the
exclusion rule "scripts/" is meant to drop. -/
def fsScripts : FS where
  dirs := [["skills"], ["skills", "demo"], ["skills", "demo", "references"],
           ["skills", "demo", "references", "scripts"], ["out"]]
  files :=
    [ (["skills", "demo", "SKILL.md"], .text "---\ntitle: Demo\n---\nplain body\n"),
      (["skills", "demo", "references", "scripts", "helper.py"], .text "print(1)\n") ]

/-- A source directory without the required SKILL.md. -/
def fsNoSkill : FS where
  dirs := [["skills"], ["skills", "demo"], ["out"]]
  files := [ (["skills", "demo", "README.md"], .text "not a skill\n") ]

/-- A document body with no frontmatter structure and one removable
pattern instance. -/
def noFmContent : String := "Run mcp__a__b now\n"

/-- SKILL.md holder for a document without the frontmatter structure. -/
def fsNoFm : FS where
  dirs := [["skills"], ["skills", "demo"], ["out"]]
  files := [ (["skills", "demo", "SKILL.md"], .text noFmContent) ]

/-! ## Statement helpers -/

/-- Internal paths of an archive file (empty for a text file). -/
def zipEntryPaths : FData → List FPath
  | .text _ => []
  | .zipArc es => es.map Prod.fst

/-- Internal paths of the archive at p after a run. -/
def archivePaths (st : St) (p : FPath) : List FPath :=
  ((st.fs.lookupFile p).map zipEntryPaths).getD []

/-- The staged rewritten document produced by convert_skill_md, if any. -/
def skillMdResult (yi : YamlImpl) (cfg : Config) (st : St) : Option FData :=
  match convert_skill_md yi cfg (convertedDirOf cfg) st with
  | .ok st2 => st2.fs.lookupFile (convertedDirOf cfg ++ ["SKILL.md"])
  | .error _ => none

/-! ## Relational semantics of the regex engine

The nondeterministic acceptance relation: Matches pat s n holds when some
assignment of quantifier lengths lets pat consume exactly the first n
characters of s.  The executable matcher is sound and complete for it
(its preference order only selects among accepting assignments). -/

inductive Matches : List RItem → List Char → Nat → Prop where
  | nil : ∀ s, Matches [] s 0
  | lit : ∀ c rest x s n, x = c → Matches rest s n →
      Matches (.lit c :: rest) (x :: s) (n + 1)
  | plus : ∀ p rest s j n, 1 ≤ j → j ≤ s.length → (s.take j).all p = true →
      Matches rest (s.drop j) n → Matches (.plus p :: rest) s (j + n)
  | star : ∀ p rest s j n, j ≤ s.length → (s.take j).all p = true →
      Matches rest (s.drop j) n → Matches (.star p :: rest) s (j + n)
  | lazyStar : ∀ p rest s j n, j ≤ s.length → (s.take j).all p = true →
      Matches rest (s.drop j) n → Matches (.lazyStar p :: rest) s (j + n)

/-- No match of the pattern occurs at any position of s. -/
def noMatchAnywhere (pat : List RItem) (s : List Char) : Prop :=
  ∀ q n, ¬ Matches pat (s.drop q) n

/-- Items that can only consume word characters. -/
def classW : RItem → Prop
  | .lit c => isW c = true
  | .plus p => ∀ c, p c = true → isW c = true
  | .star p => ∀ c, p c = true → isW c = true
  | .lazyStar p => ∀ c, p c = true → isW c = true

/-! # Claim theorems -/

/-- Claim C1, counterexample: a dry-run conversion of the demo bundle
physically creates the staging directory on disk — the directory
out/.demo_temp (and its skill subdirectory) is absent before the run and
present after it, because converted_dir.mkdir(parents=True) at line 145 is
not guarded by the dry-run flag.  This refutes the claim that dry-run
creates neither the staging directory nor any file or directory on disk. -/
theorem C1_counterexample :
    (st0 fsDemo).fs.isDir (tempDirOf cfgDemoDry) = false ∧
      (convert yamlTest cfgDemoDry none (st0 fsDemo)).2.fs.isDir (tempDirOf cfgDemoDry) = true ∧
      (convert yamlTest cfgDemoDry none (st0 fsDemo)).2.fs.isDir (convertedDirOf cfgDemoDry) = true := by
  decide

/-- Claim C2, counterexample: on the demo bundle the dry-run change list and
the non-dry-run change list are not equal — the non-dry-run conversion
appends a final zip-creation entry (line 353) that dry-run never appends
(create_zip returns before it at lines 336-338). -/
theorem C2_counterexample :
    ¬ ((convert yamlTest cfgDemoDry none (st0 fsDemo)).2.changes =
        (convert yamlTest cfgDemo none (st0 fsDemo)).2.changes) := by
  decide

/-- Claim C3 (code bug): the exclusion test is applied to the path relative
to the bundle root (line 284), which for every walked file begins with the
component "references", so a directory rule such as "scripts/" can never
match (line 317 tests startswith("scripts")).  Concretely, the file
references/scripts/helper.py is not excluded and its copy appears in the
produced archive, although the EXCLUDE_PATTERNS entry "scripts/" (with the
comment that scripts will not execute on the target platform) is there to
drop it. -/
theorem C3_code_bug_eval :
    should_exclude ["references", "scripts", "helper.py"] = false ∧
      ["demo", "references", "scripts", "helper.py"] ∈
        archivePaths (convert yamlTest cfgDemo none (st0 fsScripts)).2 ["out", "demo.zip"] := by
  decide

/-- Claim C4, counterexample: for the demo bundle (one removable header
field, one removal-pattern instance in the body, one reference file) the
non-dry-run change log has four entries, not the claimed three: the
zip-creation entry of line 353 is logged in addition to the field-removal,
pattern-replacement and bundling-summary entries. -/
theorem C4_counterexample :
    ¬ ((convert yamlTest cfgDemo none (st0 fsDemo)).2.changes.length = 3) := by
  decide

/-- Claim C4 as amended: the change log of that conversion consists of
exactly four entries, in order: the field removal, the pattern replacement,
the bundling summary, and the zip creation. -/
theorem C4_amended :
    (convert yamlTest cfgDemo none (st0 fsDemo)).2.changes =
      [ Change.removedField "allowed-tools" (YVal.str "Bash"),
        Change.replacedPattern 1 "mcp__\\w+__\\w+\\([^)]*\\)",
        Change.bundled 1 5,
        Change.createdZip "demo.zip" 100 ] := by
  decide

/-- Claim C8, counterexample: a bundled reference file may itself bear the
staging directory's temporary name, in which case an internal path of the
produced archive does contain that name — refuting the claim that archive
paths never contain it. -/
theorem C8_counterexample :
    tempDirOf cfgDemo = ["out", "." ++ pathName cfgDemo.skill_path ++ "_temp"] ∧
      ["demo", "references", "." ++ pathName cfgDemo.skill_path ++ "_temp"] ∈
        archivePaths (convert yamlTest cfgDemo none (st0 fsTempName)).2 ["out", "demo.zip"] := by
  decide

/-- Claim C9, counterexample: in dry-run mode an unexpected exception is
caught and the exit code is 1, but the staging directory — created
unconditionally at line 145 — is not removed before the process exits,
because the finally-block at lines 166-168 skips cleanup in dry-run mode.
This refutes the claim that the staging directory is always removed. -/
theorem C9_counterexample :
    (main_run yamlTest cfgDemoDry (some (.transform, "boom")) (st0 fsDemo)).exitCode = 1 ∧
      "Error during conversion: boom" ∈
        (main_run yamlTest cfgDemoDry (some (.transform, "boom")) (st0 fsDemo)).st.printed ∧
      (main_run yamlTest cfgDemoDry (some (.transform, "boom")) (st0 fsDemo)).st.fs.isDir
        (tempDirOf cfgDemoDry) = true := by
  decide

/-- Claim C10, counterexample: for a source document without the
marker-delimited header structure, the rewritten document does begin with a
header block containing the serialization of the empty mapping, but it is
not followed by the original content: the body is first passed through body
cleaning (line 199), which here replaces the pattern instance.  This refutes
the "followed by the original content as body" part of the claim. -/
theorem C10_counterexample :
    skillMdResult yamlTest cfgDemo (st0 fsNoFm) =
        some (.text "---\n\x7b\x7d\n---\nRun [MCP tool] now\n") ∧
      ¬ ("---\n\x7b\x7d\n---\nRun [MCP tool] now\n" =
          "---\n" ++ yamlTest.dump [] ++ "---\n" ++ noFmContent) := by
  decide

/-! # Library lemmas -/

theorem chStarts_iff : ∀ a b : List Char, chStarts a b = true ↔ a <+: b
  | [], b => by simpa [chStarts] using List.nil_prefix
  | x :: as, [] => by simp [chStarts, List.prefix_nil]
  | x :: as, y :: bs => by
    rw [show chStarts (x :: as) (y :: bs) = (x == y && chStarts as bs) from rfl,
      Bool.and_eq_true, beq_iff_eq, List.cons_prefix_cons, chStarts_iff as bs]

theorem sw_iff : ∀ a b : FPath, startsWithPath a b = true ↔ a <+: b
  | [], b => by simpa [startsWithPath] using List.nil_prefix
  | x :: as, [] => by simp [startsWithPath, List.prefix_nil]
  | x :: as, y :: bs => by
    rw [show startsWithPath (x :: as) (y :: bs) = (x == y && startsWithPath as bs) from rfl,
      Bool.and_eq_true, beq_iff_eq, List.cons_prefix_cons, sw_iff as bs]

theorem sw_false_iff (a b : FPath) : startsWithPath a b = false ↔ ¬ a <+: b := by
  rw [← sw_iff]
  cases startsWithPath a b <;> simp

/-- Two paths neither of which leads into the other root disjoint subtrees:
the first is no prefix of any extension of the second. -/
theorem not_prefix_append_of_disjoint {a b : FPath} (h1 : ¬ a <+: b) (h2 : ¬ b <+: a)
    (x : FPath) : ¬ a <+: b ++ x := by
  intro h
  rcases Nat.le_total a.length b.length with hl | hl
  · exact h1 (List.prefix_of_prefix_length_le h (List.prefix_append b x) hl)
  · exact h2 (List.prefix_of_prefix_length_le (List.prefix_append b x) h hl)

/-- Disjoint subtrees, both sides extended. -/
theorem ext_not_prefix_ext_of_disjoint {a b : FPath} (h1 : ¬ a <+: b) (h2 : ¬ b <+: a)
    (x y : FPath) : ¬ a ++ x <+: b ++ y := by
  intro h
  exact not_prefix_append_of_disjoint h1 h2 y ((List.prefix_append a x).trans h)

theorem find?_filter_keep {α} (p q : α → Bool) (h : ∀ a, q a = true → p a = true) :
    ∀ l : List α, (l.filter p).find? q = l.find? q := by
  intro l
  induction l with
  | nil => rfl
  | cons a rest ih =>
    cases hq : q a with
    | true => simp [List.filter_cons, h a hq, List.find?_cons_of_pos, hq]
    | false =>
      cases hp : p a with
      | true => simp [List.filter_cons, hp, List.find?_cons_of_neg, hq, ih]
      | false => simp [List.filter_cons, hp, List.find?_cons_of_neg, hq, ih]

theorem filter_filter_keep {α} (p q : α → Bool) (h : ∀ a, p a = true → q a = true) :
    ∀ l : List α, (l.filter q).filter p = l.filter p := by
  intro l
  induction l with
  | nil => rfl
  | cons a rest ih =>
    cases hp : p a with
    | true => simp [List.filter_cons, h a hp, hp, ih]
    | false =>
      cases hq : q a with
      | true => simp [List.filter_cons, hp, hq, ih]
      | false => simp [List.filter_cons, hp, hq, ih]

theorem mkdirParents_files (fs : FS) (p : FPath) : (fs.mkdirParents p).files = fs.files := rfl

theorem rmtree_files (fs : FS) (p : FPath) :
    (fs.rmtree p).files = fs.files.filter (fun kv => !(startsWithPath p kv.1)) := rfl

theorem writeFile_files (fs : FS) (p : FPath) (d : FData) :
    (fs.writeFile p d).files = (p, d) :: fs.files.filter (fun kv => !(kv.1 == p)) := rfl

theorem lookupFile_write_self (fs : FS) (p : FPath) (d : FData) :
    (fs.writeFile p d).lookupFile p = some d := by
  simp [FS.writeFile, FS.lookupFile, List.find?_cons_of_pos]

theorem lookupFile_write_other (fs : FS) (p q : FPath) (d : FData) (h : ¬ q = p) :
    (fs.writeFile p d).lookupFile q = fs.lookupFile q := by
  simp only [FS.writeFile, FS.lookupFile]
  have h1 : ∀ kv : FPath × FData, (kv.1 == q) = true → (!(kv.1 == p)) = true := by
    intro kv hkv
    have h2 : kv.1 = q := by simpa using hkv
    rw [h2, Bool.not_eq_true', beq_eq_false_iff_ne]
    exact h
  have h0 : ¬ ((fun kv : FPath × FData => kv.1 == q) (p, d)) = true := by
    simp only [beq_iff_eq]
    exact fun hh => h hh.symm
  rw [List.find?_cons_of_neg (p := fun kv : FPath × FData => kv.1 == q) _ h0,
    find?_filter_keep _ _ h1]

theorem lookupFile_mkdir (fs : FS) (p q : FPath) :
    (fs.mkdirParents p).lookupFile q = fs.lookupFile q := rfl

theorem lookupFile_rmtree_other (fs : FS) (p q : FPath) (h : ¬ p <+: q) :
    (fs.rmtree p).lookupFile q = fs.lookupFile q := by
  simp only [FS.rmtree, FS.lookupFile]
  rw [find?_filter_keep _ _ (fun kv hkv => by
    simp only [beq_iff_eq] at hkv
    simp [hkv, (sw_false_iff p q).2 h])]

theorem contains_iff_mem {l : List FPath} {x : FPath} : l.contains x = true ↔ x ∈ l := by
  simp [List.contains, List.elem_iff]

theorem ancestors_mem_iff : ∀ (p q : FPath), q ∈ ancestors p ↔ q ≠ [] ∧ q <+: p := by
  intro p
  induction p with
  | nil =>
    intro q
    simp only [ancestors, List.not_mem_nil, false_iff, not_and]
    intro hq hp
    exact hq (List.prefix_nil.1 hp)
  | cons x rest ih =>
    intro q
    simp only [ancestors, List.mem_cons, List.mem_map]
    constructor
    · rintro (rfl | ⟨r, hr, rfl⟩)
      · exact ⟨by simp, by simp [List.cons_prefix_cons]⟩
      · rcases (ih r).1 hr with ⟨hne, hpre⟩
        exact ⟨by simp, by simp [List.cons_prefix_cons, hpre]⟩
    · rintro ⟨hne, hpre⟩
      cases q with
      | nil => exact absurd rfl hne
      | cons a q2 =>
        rcases (List.cons_prefix_cons.1 hpre) with ⟨rfl, hq2⟩
        cases q2 with
        | nil => exact Or.inl rfl
        | cons b q3 => exact Or.inr ⟨b :: q3, (ih _).2 ⟨by simp, hq2⟩, rfl⟩

theorem isDir_mkdir_iff (fs : FS) (p q : FPath) :
    (fs.mkdirParents p).isDir q = true ↔ fs.isDir q = true ∨ q ∈ ancestors p := by
  simp only [FS.mkdirParents, FS.isDir, contains_iff_mem, List.mem_append, List.mem_filter]
  constructor
  · rintro (h | ⟨h, _⟩)
    · exact Or.inl h
    · exact Or.inr h
  · rintro (h | h)
    · exact Or.inl h
    · by_cases hd : q ∈ fs.dirs
      · exact Or.inl hd
      · exact Or.inr ⟨h, by simpa [contains_iff_mem] using hd⟩

theorem isDir_mkdir_ancestor (fs : FS) (p q : FPath) (h : q ∈ ancestors p) :
    (fs.mkdirParents p).isDir q = true := (isDir_mkdir_iff fs p q).2 (Or.inr h)

theorem temp_mem_ancestors_converted (cfg : Config) :
    tempDirOf cfg ∈ ancestors (convertedDirOf cfg) := by
  rw [ancestors_mem_iff]
  exact ⟨by simp [tempDirOf], List.prefix_append _ _⟩

theorem converted_mem_ancestors_converted (cfg : Config) :
    convertedDirOf cfg ∈ ancestors (convertedDirOf cfg) := by
  rw [ancestors_mem_iff]
  exact ⟨by simp [convertedDirOf, tempDirOf], List.prefix_refl _⟩

theorem ancestors_length_le (p q : FPath) (h : q ∈ ancestors p) : q.length ≤ p.length :=
  ((ancestors_mem_iff p q).1 h).2.length_le

theorem filter_filter_none {α} (p q : α → Bool) (h : ∀ a, p a = true → q a = false) :
    ∀ l : List α, (l.filter q).filter p = [] := by
  intro l
  induction l with
  | nil => rfl
  | cons a rest ih =>
    cases hq : q a with
    | true =>
      cases hp : p a with
      | true => exact absurd (h a hp) (by simp [hq])
      | false => simp [List.filter_cons, hq, hp, ih]
    | false => simp [List.filter_cons, hq, ih]

theorem isDir_rmtree_under (fs : FS) (p q : FPath) (h : p <+: q) :
    (fs.rmtree p).isDir q = false := by
  simp only [FS.rmtree, FS.isDir]
  cases hc : List.contains (List.filter (fun d => !startsWithPath p d) fs.dirs) q with
  | false => rfl
  | true =>
    rw [contains_iff_mem, List.mem_filter] at hc
    rw [(sw_iff p q).2 h] at hc
    simpa using hc.2

theorem filesUnder_rmtree_under (fs : FS) (p q : FPath) (h : p <+: q) :
    (fs.rmtree p).filesUnder q = [] := by
  simp only [FS.rmtree, FS.filesUnder]
  refine filter_filter_none _ _ (fun kv hkv => ?_) fs.files
  rw [Bool.and_eq_true] at hkv
  rcases hkv with ⟨h1, _⟩
  rw [sw_iff] at h1
  simp [(sw_iff p kv.1).2 (h.trans h1)]

theorem filesUnder_mkdir (fs : FS) (p q : FPath) :
    (fs.mkdirParents p).filesUnder q = fs.filesUnder q := rfl

theorem filesUnder_write_other (fs : FS) (p q : FPath) (d : FData) (h : ¬ q <+: p) :
    (fs.writeFile p d).filesUnder q = fs.filesUnder q := by
  simp only [FS.writeFile, FS.filesUnder]
  rw [List.filter_cons]
  have hc : (startsWithPath q (p, d).1 && !((p, d).1 == q)) = false := by
    simp only [(sw_false_iff q p).2 h, Bool.false_and]
  rw [hc, if_neg Bool.false_ne_true]
  refine filter_filter_keep _ _ (fun kv hkv => ?_) fs.files
  rw [Bool.and_eq_true] at hkv
  rcases hkv with ⟨h1, _⟩
  rw [sw_iff] at h1
  have : ¬ kv.1 = p := by
    rintro rfl
    exact h h1
  simpa using this

theorem filesUnder_rmtree_disjoint (fs : FS) (p q : FPath) (h1 : ¬ p <+: q) (h2 : ¬ q <+: p) :
    (fs.rmtree p).filesUnder q = fs.filesUnder q := by
  simp only [FS.rmtree, FS.filesUnder]
  refine filter_filter_keep _ _ (fun kv hkv => ?_) fs.files
  rw [Bool.and_eq_true] at hkv
  rcases hkv with ⟨hq, _⟩
  rw [sw_iff] at hq
  rcases hq with ⟨t, ht⟩
  rw [Bool.not_eq_true', sw_false_iff, ← ht]
  exact not_prefix_append_of_disjoint h1 h2 t

theorem mem_filesUnder_iff (fs : FS) (q : FPath) (kv : FPath × FData) :
    kv ∈ fs.filesUnder q ↔ kv ∈ fs.files ∧ q <+: kv.1 ∧ kv.1 ≠ q := by
  simp only [FS.filesUnder, List.mem_filter, Bool.and_eq_true, sw_iff, and_assoc]
  constructor
  · rintro ⟨h1, h2, h3⟩
    exact ⟨h1, h2, by simpa using h3⟩
  · rintro ⟨h1, h2, h3⟩
    exact ⟨h1, h2, by simpa using h3⟩

theorem mem_filesUnder_write (fs : FS) (p q : FPath) (d : FData) (kv : FPath × FData)
    (h : kv ∈ (fs.writeFile p d).filesUnder q) : kv = (p, d) ∨ kv ∈ fs.filesUnder q := by
  rw [mem_filesUnder_iff] at h
  rcases h with ⟨hmem, h2, h3⟩
  simp only [FS.writeFile, List.mem_cons, List.mem_filter] at hmem
  rcases hmem with rfl | ⟨hmem, _⟩
  · exact Or.inl rfl
  · exact Or.inr ((mem_filesUnder_iff fs q kv).2 ⟨hmem, h2, h3⟩)

theorem lookupFile_mem (fs : FS) (p : FPath) (d : FData) (h : fs.lookupFile p = some d) :
    (p, d) ∈ fs.files := by
  simp only [FS.lookupFile, Option.map_eq_some'] at h
  rcases h with ⟨kv, hfind, rfl⟩
  have hmem := List.mem_of_find?_eq_some hfind
  have hp := List.find?_some hfind
  have : kv.1 = p := by simpa using hp
  rcases kv with ⟨k1, k2⟩
  cases this
  exact hmem

theorem isDir_mkdir_not_ancestor (fs : FS) (p q : FPath) (h : q ∉ ancestors p) :
    (fs.mkdirParents p).isDir q = fs.isDir q := by
  cases hq : fs.isDir q with
  | true => exact (isDir_mkdir_iff fs p q).2 (Or.inl hq)
  | false =>
    cases hq2 : (fs.mkdirParents p).isDir q with
    | false => rfl
    | true =>
      rcases (isDir_mkdir_iff fs p q).1 hq2 with h1 | h1
      · rw [hq] at h1
        cases h1
      · exact absurd h1 h

theorem temp_not_ancestor_output (cfg : Config) : tempDirOf cfg ∉ ancestors cfg.output_dir := by
  intro hmem
  have hlen := ancestors_length_le _ _ hmem
  simp [tempDirOf] at hlen

theorem validate_false_of_disj (cfg : Config) (fs : FS)
    (h : fs.pexists cfg.skill_path = false ∨ fs.isDir cfg.skill_path = false ∨
      fs.pexists (cfg.skill_path ++ ["SKILL.md"]) = false) :
    (validate_skill cfg fs).1 = false := by
  cases hp : fs.pexists cfg.skill_path with
  | false => simp [validate_skill, hp]
  | true =>
    cases hd : fs.isDir cfg.skill_path with
    | false => simp [validate_skill, hp, hd]
    | true =>
      cases hs : fs.pexists (cfg.skill_path ++ ["SKILL.md"]) with
      | false => simp [validate_skill, hp, hd, hs]
      | true => rcases h with h | h | h <;> simp_all

theorem strMk_data (s : String) : String.mk s.data = s := by cases s; rfl

/-- Claim C5: if the source path does not exist, is not a directory, or does
not contain a SKILL.md entry, the run exits with code 1, no file is created
or changed, no change or warning is recorded, and no staging directory is
left behind (the output-directory creation performed by main before any
conversion work is the only directory effect, and it never creates the
staging directory). -/
theorem C5_validation_failure (yi : YamlImpl) (cfg : Config) (inj : Option (FailStep × String))
    (st : St)
    (h : (st.fs.mkdirParents cfg.output_dir).pexists cfg.skill_path = false ∨
      (st.fs.mkdirParents cfg.output_dir).isDir cfg.skill_path = false ∨
      (st.fs.mkdirParents cfg.output_dir).pexists (cfg.skill_path ++ ["SKILL.md"]) = false) :
    (main_run yi cfg inj st).exitCode = 1 ∧
      (main_run yi cfg inj st).st.fs.files = st.fs.files ∧
      (main_run yi cfg inj st).st.changes = st.changes ∧
      (main_run yi cfg inj st).st.warnings = st.warnings ∧
      (main_run yi cfg inj st).st.fs.isDir (tempDirOf cfg) = st.fs.isDir (tempDirOf cfg) := by
  have hv := validate_false_of_disj cfg _ h
  have hmain : main_run yi cfg inj st =
      ⟨1, { st with fs := st.fs.mkdirParents cfg.output_dir,
                    printed := (st.printed ++ ["Converting skill: " ++ pathName cfg.skill_path])
                      ++ (validate_skill cfg (st.fs.mkdirParents cfg.output_dir)).2
                      ++ ["Conversion failed."] }⟩ := by
    unfold main_run convert stPrint
    simp only [hv, Bool.not_false, if_pos]
  rw [hmain]
  refine ⟨rfl, rfl, rfl, rfl, ?_⟩
  exact isDir_mkdir_not_ancestor st.fs cfg.output_dir (tempDirOf cfg) (temp_not_ancestor_output cfg)

/-- Witness for C5 at a concrete bundle without SKILL.md. -/
theorem C5_witness :
    (((st0 fsNoSkill).fs.mkdirParents cfgDemo.output_dir).pexists
        (cfgDemo.skill_path ++ ["SKILL.md"]) = false) ∧
      (main_run yamlTest cfgDemo none (st0 fsNoSkill)).exitCode = 1 ∧
      (main_run yamlTest cfgDemo none (st0 fsNoSkill)).st.fs.files = (st0 fsNoSkill).fs.files ∧
      (main_run yamlTest cfgDemo none (st0 fsNoSkill)).st.changes = (st0 fsNoSkill).changes ∧
      (main_run yamlTest cfgDemo none (st0 fsNoSkill)).st.warnings = (st0 fsNoSkill).warnings ∧
      (main_run yamlTest cfgDemo none (st0 fsNoSkill)).st.fs.isDir (tempDirOf cfgDemo) =
        (st0 fsNoSkill).fs.isDir (tempDirOf cfgDemo) :=
  ⟨by decide,
    C5_validation_failure yamlTest cfgDemo none (st0 fsNoSkill) (Or.inr (Or.inr (by decide)))⟩

theorem lookup_removeKey (fm : Frontmatter) (f : String) : (removeKey fm f).lookup f = none := by
  unfold removeKey
  induction fm with
  | nil => rfl
  | cons kv rest ih =>
    cases hk : kv.1 == f with
    | true => simpa [List.filter_cons, hk] using ih
    | false =>
      have hpred : (!(kv.1 == f)) = true := by simp [hk]
      rw [List.filter_cons, if_pos hpred]
      cases kv with
      | mk k v =>
        have hk2 : (f == k) = false := by
          rw [beq_eq_false_iff_ne] at hk ⊢
          exact fun he => hk he.symm
        rw [List.lookup_cons, hk2]
        exact ih

/-- Claim C7: for every header containing the removable restricted field
(allowed-tools), header cleaning with the keep flag unset removes the field
and logs exactly its removal with the removed value; with the keep flag set
the header is returned unchanged and nothing is logged. -/
theorem C7_restricted_field (keep : Bool) (fm : Frontmatter) (v : YVal)
    (h : fm.lookup "allowed-tools" = some v) :
    (keep = false →
      (clean_frontmatter keep fm).1.lookup "allowed-tools" = none ∧
        (clean_frontmatter keep fm).2 = [Change.removedField "allowed-tools" v]) ∧
    (keep = true → (clean_frontmatter keep fm).1 = fm ∧ (clean_frontmatter keep fm).2 = []) := by
  unfold clean_frontmatter REMOVE_YAML_FIELDS
  simp only [List.foldl_cons, List.foldl_nil, h]
  cases keep with
  | false => simpa using lookup_removeKey fm "allowed-tools"
  | true => simp

/-- Witness for C7 at a concrete header, with the keep flag unset. -/
theorem C7_witness :
    ([("allowed-tools", YVal.str "Bash"), ("title", YVal.str "Demo")].lookup "allowed-tools" =
        some (YVal.str "Bash")) ∧
      (clean_frontmatter false
          [("allowed-tools", YVal.str "Bash"), ("title", YVal.str "Demo")]).1.lookup
          "allowed-tools" = none ∧
      (clean_frontmatter false [("allowed-tools", YVal.str "Bash"), ("title", YVal.str "Demo")]).2 =
        [Change.removedField "allowed-tools" (YVal.str "Bash")] :=
  ⟨by decide,
    (C7_restricted_field false [("allowed-tools", YVal.str "Bash"), ("title", YVal.str "Demo")]
      (YVal.str "Bash") (by decide)).1 rfl⟩

theorem applyRemovals_of_no_matches (content : List Char)
    (h : ∀ cp ∈ CC_PATTERNS, countAll cp.pat content = 0) :
    applyRemovals content = (content, []) := by
  have h1 := h _ (show CC_PATTERNS.get ⟨0, by simp [CC_PATTERNS]⟩ ∈ CC_PATTERNS from List.get_mem ..)
  have h2 := h _ (show CC_PATTERNS.get ⟨1, by simp [CC_PATTERNS]⟩ ∈ CC_PATTERNS from List.get_mem ..)
  have h3 := h _ (show CC_PATTERNS.get ⟨2, by simp [CC_PATTERNS]⟩ ∈ CC_PATTERNS from List.get_mem ..)
  have h4 := h _ (show CC_PATTERNS.get ⟨3, by simp [CC_PATTERNS]⟩ ∈ CC_PATTERNS from List.get_mem ..)
  simp only [CC_PATTERNS, List.get] at h1 h2 h3 h4
  unfold applyRemovals
  simp [CC_PATTERNS, List.foldl_cons, List.foldl_nil, h1, h2, h3, h4]

/-- Claim C10 as amended: for a source document lacking the marker-delimited
header structure, the rewritten document consists of a marker-delimited
header block containing the serialization of the empty mapping, followed by
the original content after body cleaning — verbatim the original content
whenever no removal pattern matches it. -/
theorem C10_amended (yi : YamlImpl) (cfg : Config) (st : St) (content : String)
    (hread : st.fs.lookupFile (cfg.skill_path ++ ["SKILL.md"]) = some (.text content))
    (hnofm : splitFM content.data = none)
    (hwet : cfg.dry_run = false) :
    ∃ st2, convert_skill_md yi cfg (convertedDirOf cfg) st = .ok st2 ∧
      st2.fs.lookupFile (convertedDirOf cfg ++ ["SKILL.md"]) =
        some (.text ("---\n" ++ yi.dump [] ++ "---\n" ++
          String.mk (applyRemovals content.data).1)) ∧
      ((∀ cp ∈ CC_PATTERNS, countAll cp.pat content.data = 0) →
        String.mk (applyRemovals content.data).1 = content) := by
  have hparse : parse_frontmatter yi content = ([], content) := by
    unfold parse_frontmatter
    rw [hnofm]
  have hcleanfm : clean_frontmatter cfg.keep_tools [] = ([], []) := by
    unfold clean_frontmatter REMOVE_YAML_FIELDS
    simp [List.lookup]
  unfold convert_skill_md
  rw [hread]
  refine ⟨_, rfl, ?_, ?_⟩
  · simp only [hparse, hcleanfm, hwet, Bool.false_eq_true, if_false]
    exact lookupFile_write_self _ _ _
  · intro hno
    rw [applyRemovals_of_no_matches content.data hno]

/-- Witness for C10 at the concrete no-frontmatter document. -/
theorem C10_amended_witness :
    ((st0 fsNoFm).fs.lookupFile (cfgDemo.skill_path ++ ["SKILL.md"]) =
        some (.text noFmContent)) ∧
      splitFM noFmContent.data = none ∧
      ∃ st2, convert_skill_md yamlTest cfgDemo (convertedDirOf cfgDemo) (st0 fsNoFm) = .ok st2 ∧
        st2.fs.lookupFile (convertedDirOf cfgDemo ++ ["SKILL.md"]) =
          some (.text ("---\n" ++ yamlTest.dump [] ++ "---\n" ++
            String.mk (applyRemovals noFmContent.data).1)) ∧
        ((∀ cp ∈ CC_PATTERNS, countAll cp.pat noFmContent.data = 0) →
          String.mk (applyRemovals noFmContent.data).1 = noFmContent) :=
  ⟨by decide, by decide,
    C10_amended yamlTest cfgDemo (st0 fsNoFm) noFmContent (by decide) (by decide) rfl⟩

theorem bundleStep_dry_fs (cfg : Config) (out : FPath) (hdry : cfg.dry_run = true)
    (acc : St × Nat × Nat) (rf : FPath × FData) :
    ((bundleStep cfg out acc rf).1).fs = (acc.1).fs := by
  simp only [bundleStep]
  split
  · rfl
  · split
    · rfl
    · simp [hdry]

theorem foldl_bundleStep_dry_fs (cfg : Config) (out : FPath) (hdry : cfg.dry_run = true) :
    ∀ (walk : List (FPath × FData)) (acc : St × Nat × Nat),
      ((walk.foldl (bundleStep cfg out) acc).1).fs = (acc.1).fs := by
  intro walk
  induction walk with
  | nil => intro acc; rfl
  | cons rf rest ih =>
    intro acc
    rw [List.foldl_cons, ih, bundleStep_dry_fs cfg out hdry]

theorem bundle_references_dry_fs (cfg : Config) (out : FPath) (st : St)
    (hdry : cfg.dry_run = true) : (bundle_references cfg out st).fs = st.fs := by
  simp only [bundle_references]
  split
  · rfl
  · split
    · exact foldl_bundleStep_dry_fs cfg out hdry _ _
    · exact foldl_bundleStep_dry_fs cfg out hdry _ _

theorem create_zip_dry (cfg : Config) (temp : FPath) (st : St) (hdry : cfg.dry_run = true) :
    create_zip cfg temp st = (cfg.output_dir ++ [pathName cfg.skill_path ++ ".zip"], st) := by
  simp [create_zip, hdry]

theorem finallyCleanup_dry (cfg : Config) (st : St) (hdry : cfg.dry_run = true) :
    finallyCleanup cfg st = st := by
  simp [finallyCleanup, hdry]

theorem convert_skill_md_dry_fs (yi : YamlImpl) (cfg : Config) (out : FPath) (st st2 : St)
    (hdry : cfg.dry_run = true) (h : convert_skill_md yi cfg out st = .ok st2) :
    st2.fs = st.fs := by
  unfold convert_skill_md at h
  cases hl : st.fs.lookupFile (cfg.skill_path ++ ["SKILL.md"]) with
  | none => rw [hl] at h; cases h
  | some d =>
    cases d with
    | zipArc es => rw [hl] at h; cases h
    | text content =>
      rw [hl] at h
      simp only [hdry, if_true] at h
      cases h
      rfl

theorem prepStaging_fs (cfg : Config) (s : St) :
    (prepStaging cfg s).fs =
      FS.mkdirParents
        (if s.fs.pexists (tempDirOf cfg) = true then s.fs.rmtree (tempDirOf cfg) else s.fs)
        (convertedDirOf cfg) := by
  cases hc : s.fs.pexists (tempDirOf cfg) with
  | true => simp [prepStaging, hc]
  | false => simp [prepStaging, hc]

theorem prepStaging_changes (cfg : Config) (s : St) :
    (prepStaging cfg s).changes = s.changes := by
  simp only [prepStaging]
  split <;> rfl

theorem prepStaging_warnings (cfg : Config) (s : St) :
    (prepStaging cfg s).warnings = s.warnings := by
  simp only [prepStaging]
  split <;> rfl

theorem prepStaging_printed (cfg : Config) (s : St) :
    (prepStaging cfg s).printed = s.printed := by
  simp only [prepStaging]
  split <;> rfl

theorem convert_eq_of_ok (yi : YamlImpl) (cfg : Config) (inj : Option (FailStep × String))
    (st : St) (hval : (validate_skill cfg st.fs).1 = true) (zs : FPath × St)
    (hb : convertBody yi cfg inj (prepStaging cfg (stPrint cfg st)) = .ok zs) :
    convert yi cfg inj st = (some zs.1, finallyCleanup cfg zs.2) := by
  unfold convert
  simp only [hval, Bool.not_true, Bool.false_eq_true, if_false]
  rw [hb]

theorem convert_eq_of_error (yi : YamlImpl) (cfg : Config) (inj : Option (FailStep × String))
    (st : St) (hval : (validate_skill cfg st.fs).1 = true) (ms : String × St)
    (hb : convertBody yi cfg inj (prepStaging cfg (stPrint cfg st)) = .error ms) :
    convert yi cfg inj st =
      (none, finallyCleanup cfg
        { ms.2 with printed := ms.2.printed ++ ["Error during conversion: " ++ ms.1] }) := by
  unfold convert
  simp only [hval, Bool.not_true, Bool.false_eq_true, if_false]
  rw [hb]

theorem convertBody_dry_fs (yi : YamlImpl) (cfg : Config) (inj : Option (FailStep × String))
    (st2 : St) (hdry : cfg.dry_run = true) :
    (∀ zs, convertBody yi cfg inj st2 = .ok zs → zs.2.fs = st2.fs) ∧
    (∀ ms, convertBody yi cfg inj st2 = .error ms → ms.2.fs = st2.fs) := by
  unfold convertBody
  cases h1 : injAt FailStep.transform inj with
  | some m =>
    refine ⟨fun zs h => (nomatch h), fun ms h => ?_⟩
    cases h
    rfl
  | none =>
    cases h2 : convert_skill_md yi cfg (convertedDirOf cfg) st2 with
    | error m =>
      refine ⟨fun zs h => (nomatch h), fun ms h => ?_⟩
      cases h
      rfl
    | ok st3 =>
      have hst3 : st3.fs = st2.fs := convert_skill_md_dry_fs _ _ _ _ _ hdry h2
      cases h3 : injAt FailStep.copy inj with
      | some m =>
        refine ⟨fun zs h => (nomatch h), fun ms h => ?_⟩
        cases h
        exact hst3
      | none =>
        have hst4 : (bundle_references cfg (convertedDirOf cfg) st3).fs = st2.fs := by
          rw [bundle_references_dry_fs _ _ _ hdry, hst3]
        cases h4 : injAt FailStep.archive inj with
        | some m =>
          refine ⟨fun zs h => (nomatch h), fun ms h => ?_⟩
          cases h
          exact hst4
        | none =>
          refine ⟨fun zs h => ?_, fun ms h => (nomatch h)⟩
          cases h
          rw [create_zip_dry _ _ _ hdry]
          exact hst4

theorem convert_dry_fs (yi : YamlImpl) (cfg : Config) (inj : Option (FailStep × String)) (st : St)
    (hdry : cfg.dry_run = true) (hval : (validate_skill cfg st.fs).1 = true) :
    (convert yi cfg inj st).2.fs =
      FS.mkdirParents
        (if st.fs.pexists (tempDirOf cfg) = true then st.fs.rmtree (tempDirOf cfg) else st.fs)
        (convertedDirOf cfg) := by
  cases hb : convertBody yi cfg inj (prepStaging cfg (stPrint cfg st)) with
  | ok zs =>
    have h1 := (convertBody_dry_fs yi cfg inj _ hdry).1 zs hb
    rw [convert_eq_of_ok yi cfg inj st hval zs hb, finallyCleanup_dry cfg _ hdry, h1,
      prepStaging_fs]
    rfl
  | error ms =>
    have h1 := (convertBody_dry_fs yi cfg inj _ hdry).2 ms hb
    rw [convert_eq_of_error yi cfg inj st hval ms hb, finallyCleanup_dry cfg _ hdry]
    show ms.2.fs = _
    rw [h1, prepStaging_fs]
    rfl

/-- Claim C1 as amended: in dry-run mode no file is ever created — every
file of the resulting filesystem already existed — so neither the rewritten
document, nor any copied reference file, nor the zip archive comes into
being; but the staging directory tree itself IS physically created (and any
previous staging tree at that path removed): the resulting filesystem is
exactly the input one with the staging skill directory freshly made. -/
theorem C1_amended (yi : YamlImpl) (cfg : Config) (inj : Option (FailStep × String)) (st : St)
    (hdry : cfg.dry_run = true) (hval : (validate_skill cfg st.fs).1 = true) :
    (convert yi cfg inj st).2.fs =
      FS.mkdirParents
        (if st.fs.pexists (tempDirOf cfg) = true then st.fs.rmtree (tempDirOf cfg) else st.fs)
        (convertedDirOf cfg) ∧
    (convert yi cfg inj st).2.fs.isDir (convertedDirOf cfg) = true ∧
    (∀ p d, (p, d) ∈ (convert yi cfg inj st).2.fs.files → (p, d) ∈ st.fs.files) := by
  have h1 := convert_dry_fs yi cfg inj st hdry hval
  refine ⟨h1, ?_, ?_⟩
  · rw [h1]
    exact isDir_mkdir_ancestor _ _ _ (converted_mem_ancestors_converted cfg)
  · intro p d hmem
    rw [h1] at hmem
    rw [show (FS.mkdirParents
        (if st.fs.pexists (tempDirOf cfg) = true then st.fs.rmtree (tempDirOf cfg) else st.fs)
        (convertedDirOf cfg)).files =
      (if st.fs.pexists (tempDirOf cfg) = true then st.fs.rmtree (tempDirOf cfg)
        else st.fs).files from rfl] at hmem
    cases hc : st.fs.pexists (tempDirOf cfg) with
    | true =>
      rw [hc, if_pos rfl, rmtree_files] at hmem
      exact (List.mem_filter.1 hmem).1
    | false =>
      rw [hc, if_neg Bool.false_ne_true] at hmem
      exact hmem

/-- Witness for the amended C1 at the concrete dry-run of the demo bundle. -/
theorem C1_amended_witness :
    cfgDemoDry.dry_run = true ∧ (validate_skill cfgDemoDry (st0 fsDemo).fs).1 = true ∧
      ((convert yamlTest cfgDemoDry none (st0 fsDemo)).2.fs =
        FS.mkdirParents
          (if (st0 fsDemo).fs.pexists (tempDirOf cfgDemoDry) = true then
            (st0 fsDemo).fs.rmtree (tempDirOf cfgDemoDry) else (st0 fsDemo).fs)
          (convertedDirOf cfgDemoDry) ∧
      (convert yamlTest cfgDemoDry none (st0 fsDemo)).2.fs.isDir
        (convertedDirOf cfgDemoDry) = true ∧
      (∀ p d, (p, d) ∈ (convert yamlTest cfgDemoDry none (st0 fsDemo)).2.fs.files →
        (p, d) ∈ (st0 fsDemo).fs.files)) :=
  ⟨rfl, by decide, C1_amended yamlTest cfgDemoDry none (st0 fsDemo) rfl (by decide)⟩

theorem convert_skill_md_dirs (yi : YamlImpl) (cfg : Config) (out : FPath) (st st3 : St)
    (h : convert_skill_md yi cfg out st = .ok st3) : st3.fs.dirs = st.fs.dirs := by
  unfold convert_skill_md at h
  cases hl : st.fs.lookupFile (cfg.skill_path ++ ["SKILL.md"]) with
  | none => rw [hl] at h; cases h
  | some d =>
    cases d with
    | zipArc es => rw [hl] at h; cases h
    | text content =>
      rw [hl] at h
      cases h
      split <;> rfl

theorem convert_skill_md_ok_of_read (yi : YamlImpl) (cfg : Config) (out : FPath) (st : St)
    (c : String) (h : st.fs.lookupFile (cfg.skill_path ++ ["SKILL.md"]) = some (.text c)) :
    ∃ st3, convert_skill_md yi cfg out st = .ok st3 := by
  unfold convert_skill_md
  rw [h]
  exact ⟨_, rfl⟩

theorem bundleStep_isDir (cfg : Config) (out : FPath) (acc : St × Nat × Nat) (rf : FPath × FData)
    (q : FPath) (h : (acc.1).fs.isDir q = true) :
    ((bundleStep cfg out acc rf).1).fs.isDir q = true := by
  simp only [bundleStep]
  split
  · exact h
  · split
    · exact h
    · split
      · exact h
      · exact (isDir_mkdir_iff _ _ _).2 (Or.inl h)

theorem foldl_bundleStep_isDir (cfg : Config) (out : FPath) (q : FPath) :
    ∀ (walk : List (FPath × FData)) (acc : St × Nat × Nat), (acc.1).fs.isDir q = true →
      ((walk.foldl (bundleStep cfg out) acc).1).fs.isDir q = true := by
  intro walk
  induction walk with
  | nil => intro acc h; exact h
  | cons rf rest ih =>
    intro acc h
    rw [List.foldl_cons]
    exact ih _ (bundleStep_isDir cfg out acc rf q h)

theorem bundle_references_isDir (cfg : Config) (out : FPath) (st : St) (q : FPath)
    (h : st.fs.isDir q = true) : (bundle_references cfg out st).fs.isDir q = true := by
  simp only [bundle_references]
  split
  · exact h
  · split
    · exact foldl_bundleStep_isDir cfg out q _ _ h
    · exact foldl_bundleStep_isDir cfg out q _ _ h

theorem create_zip_dirs (cfg : Config) (temp : FPath) (st : St) :
    ((create_zip cfg temp st).2).fs.dirs = st.fs.dirs := by
  simp only [create_zip]
  split
  · rfl
  · split <;> rfl

theorem finallyCleanup_printed (cfg : Config) (s : St) :
    (finallyCleanup cfg s).printed = s.printed := by
  simp only [finallyCleanup]
  split <;> rfl

theorem finallyCleanup_wet (cfg : Config) (s : St) (hwet : cfg.dry_run = false)
    (hex : s.fs.pexists (tempDirOf cfg) = true) :
    finallyCleanup cfg s = { s with fs := s.fs.rmtree (tempDirOf cfg) } := by
  simp [finallyCleanup, hwet, hex]

theorem prepStaging_lookup (cfg : Config) (s : St) (q : FPath)
    (hq : ¬ tempDirOf cfg <+: q) :
    (prepStaging cfg s).fs.lookupFile q = s.fs.lookupFile q := by
  rw [prepStaging_fs, lookupFile_mkdir]
  cases hc : s.fs.pexists (tempDirOf cfg) with
  | true =>
    rw [if_pos rfl]
    exact lookupFile_rmtree_other _ _ _ hq
  | false => rw [if_neg Bool.false_ne_true]

theorem prepStaging_isDir_temp (cfg : Config) (s : St) :
    (prepStaging cfg s).fs.isDir (tempDirOf cfg) = true := by
  rw [prepStaging_fs]
  exact isDir_mkdir_ancestor _ _ _ (temp_mem_ancestors_converted cfg)

/-- Claim C9 as amended: an unexpected exception raised during the
transform, copy or archive step is caught at the top level, reported with
the underlying message, and the process exits with code 1; the staging
directory is removed before exit when dry-run is not set — in dry-run mode
the staging directory (created unconditionally) is left behind. -/
theorem C9_amended (yi : YamlImpl) (cfg : Config) (st : St) (stp : FailStep) (msg : String)
    (hval : (validate_skill cfg (st.fs.mkdirParents cfg.output_dir)).1 = true)
    (hread : ∃ c, (st.fs.mkdirParents cfg.output_dir).lookupFile
      (cfg.skill_path ++ ["SKILL.md"]) = some (.text c))
    (hnot : ¬ tempDirOf cfg <+: cfg.skill_path ++ ["SKILL.md"]) :
    (main_run yi cfg (some (stp, msg)) st).exitCode = 1 ∧
      "Error during conversion: " ++ msg ∈ (main_run yi cfg (some (stp, msg)) st).st.printed ∧
      (cfg.dry_run = false →
        (main_run yi cfg (some (stp, msg)) st).st.fs.isDir (tempDirOf cfg) = false ∧
        (main_run yi cfg (some (stp, msg)) st).st.fs.filesUnder (tempDirOf cfg) = []) := by
  obtain ⟨c, hc⟩ := hread
  have hkey : ∃ stX, convertBody yi cfg (some (stp, msg))
      (prepStaging cfg (stPrint cfg { st with fs := st.fs.mkdirParents cfg.output_dir })) =
        .error (msg, stX) ∧ stX.fs.isDir (tempDirOf cfg) = true := by
    have htemp := prepStaging_isDir_temp cfg
      (stPrint cfg { st with fs := st.fs.mkdirParents cfg.output_dir })
    have hlk : (prepStaging cfg
        (stPrint cfg { st with fs := st.fs.mkdirParents cfg.output_dir })).fs.lookupFile
        (cfg.skill_path ++ ["SKILL.md"]) = some (.text c) := by
      rw [prepStaging_lookup cfg _ _ hnot]
      exact hc
    cases stp with
    | transform =>
      refine ⟨_, ?_, htemp⟩
      unfold convertBody
      rfl
    | copy =>
      obtain ⟨st3, h3⟩ := convert_skill_md_ok_of_read yi cfg (convertedDirOf cfg) _ c hlk
      refine ⟨st3, ?_, ?_⟩
      · unfold convertBody
        rw [show injAt FailStep.transform (some (FailStep.copy, msg)) = none from rfl, h3]
        rfl
      · have hdirs := convert_skill_md_dirs yi cfg _ _ _ h3
        show st3.fs.dirs.contains _ = true
        rw [hdirs]
        exact htemp
    | archive =>
      obtain ⟨st3, h3⟩ := convert_skill_md_ok_of_read yi cfg (convertedDirOf cfg) _ c hlk
      have hd3 : st3.fs.isDir (tempDirOf cfg) = true := by
        have hdirs := convert_skill_md_dirs yi cfg _ _ _ h3
        show st3.fs.dirs.contains _ = true
        rw [hdirs]
        exact htemp
      refine ⟨bundle_references cfg (convertedDirOf cfg) st3, ?_, ?_⟩
      · unfold convertBody
        rw [show injAt FailStep.transform (some (FailStep.archive, msg)) = none from rfl, h3]
        rfl
      · exact bundle_references_isDir cfg (convertedDirOf cfg) st3 _ hd3
  obtain ⟨stX, hbody, hX⟩ := hkey
  have hconv := convert_eq_of_error yi cfg (some (stp, msg))
    { st with fs := st.fs.mkdirParents cfg.output_dir } hval (msg, stX) hbody
  have hmain : main_run yi cfg (some (stp, msg)) st =
      ⟨1, { finallyCleanup cfg
              { stX with printed := stX.printed ++ ["Error during conversion: " ++ msg] } with
            printed := (finallyCleanup cfg
              { stX with printed := stX.printed ++ ["Error during conversion: " ++ msg] }).printed
                ++ ["Conversion failed."] }⟩ := by
    simp only [main_run]
    rw [hconv]
  rw [hmain]
  refine ⟨rfl, ?_, ?_⟩
  · show _ ∈ (finallyCleanup cfg _).printed ++ _
    rw [finallyCleanup_printed]
    simp
  · intro hwet
    have hex : ({ stX with
        printed := stX.printed ++ ["Error during conversion: " ++ msg] } : St).fs.pexists
        (tempDirOf cfg) = true := by
      show (stX.fs.isDir _ || _) = true
      rw [hX]
      rfl
    show ((finallyCleanup cfg _).fs.isDir _ = false) ∧ ((finallyCleanup cfg _).fs.filesUnder _ = [])
    rw [finallyCleanup_wet cfg _ hwet hex]
    exact ⟨isDir_rmtree_under _ _ _ (List.prefix_refl _),
      filesUnder_rmtree_under _ _ _ (List.prefix_refl _)⟩

/-- Witness for the amended C9: a non-dry-run conversion of the demo bundle
with a fault injected at the copy step. -/
theorem C9_amended_witness :
    ((validate_skill cfgDemo ((st0 fsDemo).fs.mkdirParents cfgDemo.output_dir)).1 = true) ∧
      (∃ c, ((st0 fsDemo).fs.mkdirParents cfgDemo.output_dir).lookupFile
        (cfgDemo.skill_path ++ ["SKILL.md"]) = some (.text c)) ∧
      (¬ tempDirOf cfgDemo <+: cfgDemo.skill_path ++ ["SKILL.md"]) ∧
      ((main_run yamlTest cfgDemo (some (.copy, "boom")) (st0 fsDemo)).exitCode = 1 ∧
        "Error during conversion: " ++ "boom" ∈
          (main_run yamlTest cfgDemo (some (.copy, "boom")) (st0 fsDemo)).st.printed ∧
        (cfgDemo.dry_run = false →
          (main_run yamlTest cfgDemo (some (.copy, "boom")) (st0 fsDemo)).st.fs.isDir
            (tempDirOf cfgDemo) = false ∧
          (main_run yamlTest cfgDemo (some (.copy, "boom")) (st0 fsDemo)).st.fs.filesUnder
            (tempDirOf cfgDemo) = [])) :=
  ⟨by decide, ⟨demoSkillMd, by decide⟩, by decide,
    C9_amended yamlTest cfgDemo (st0 fsDemo) .copy "boom" (by decide)
      ⟨demoSkillMd, by decide⟩ (by decide)⟩

theorem bundleStep_changes (cfg : Config) (out : FPath) (acc : St × Nat × Nat)
    (rf : FPath × FData) : (bundleStep cfg out acc rf).1.changes = acc.1.changes := by
  simp only [bundleStep]
  split
  · rfl
  · split
    · rfl
    · split <;> rfl

theorem bundleStep_warnings (cfg : Config) (out : FPath) (acc : St × Nat × Nat)
    (rf : FPath × FData) :
    (bundleStep cfg out acc rf).1.warnings = acc.1.warnings ++
      (if should_exclude (rf.1.drop cfg.skill_path.length) = true then []
       else if rf.2.size > MAX_SINGLE_FILE then
         [Warning.tooLarge rf.2.size (rf.1.drop cfg.skill_path.length)]
       else []) := by
  simp only [bundleStep]
  split
  · simp
  · split
    · rfl
    · split <;> simp

theorem bundleStep_snd (cfg : Config) (out : FPath) (acc : St × Nat × Nat)
    (rf : FPath × FData) :
    (bundleStep cfg out acc rf).2 =
      if should_exclude (rf.1.drop cfg.skill_path.length) = true then acc.2
      else if rf.2.size > MAX_SINGLE_FILE then acc.2
      else (acc.2.1 + rf.2.size, acc.2.2 + 1) := by
  simp only [bundleStep]
  split
  · rfl
  · split
    · rfl
    · rfl

theorem foldl_bundleStep_rel (cfgD cfgW : Config) (out : FPath)
    (hsp : cfgW.skill_path = cfgD.skill_path) :
    ∀ (walk : List (FPath × FData)) (accD accW : St × Nat × Nat),
      (accD.1).changes = (accW.1).changes → (accD.1).warnings = (accW.1).warnings →
      accD.2 = accW.2 →
      ((walk.foldl (bundleStep cfgD out) accD).1.changes =
          (walk.foldl (bundleStep cfgW out) accW).1.changes ∧
        (walk.foldl (bundleStep cfgD out) accD).1.warnings =
          (walk.foldl (bundleStep cfgW out) accW).1.warnings ∧
        (walk.foldl (bundleStep cfgD out) accD).2 =
          (walk.foldl (bundleStep cfgW out) accW).2) := by
  intro walk
  induction walk with
  | nil => intro accD accW h1 h2 h3; exact ⟨h1, h2, h3⟩
  | cons rf rest ih =>
    intro accD accW h1 h2 h3
    rw [List.foldl_cons, List.foldl_cons]
    refine ih _ _ ?_ ?_ ?_
    · rw [bundleStep_changes, bundleStep_changes]
      exact h1
    · rw [bundleStep_warnings, bundleStep_warnings, hsp, h2]
    · rw [bundleStep_snd, bundleStep_snd, hsp, h3]

theorem finallyCleanup_changes (cfg : Config) (s : St) :
    (finallyCleanup cfg s).changes = s.changes := by
  simp only [finallyCleanup]
  split <;> rfl

theorem finallyCleanup_warnings (cfg : Config) (s : St) :
    (finallyCleanup cfg s).warnings = s.warnings := by
  simp only [finallyCleanup]
  split <;> rfl

theorem create_zip_wet (cfg : Config) (temp : FPath) (st : St) (hwet : cfg.dry_run = false) :
    ∃ k, (create_zip cfg temp st).2.changes =
        st.changes ++ [Change.createdZip (pathName cfg.skill_path ++ ".zip") k] ∧
      (create_zip cfg temp st).2.warnings = st.warnings := by
  simp only [create_zip, hwet, Bool.false_eq_true, if_false]
  split <;> exact ⟨_, rfl, rfl⟩

theorem pexists_write_other (fs : FS) (p q : FPath) (d : FData) (h : ¬ q = p) :
    (fs.writeFile p d).pexists q = fs.pexists q := by
  unfold FS.pexists FS.isFile
  rw [lookupFile_write_other fs p q d h]
  rfl

theorem bundle_references_rel (cfgD cfgW : Config) (out : FPath) (stD stW : St)
    (hsp : cfgW.skill_path = cfgD.skill_path)
    (hpe : stW.fs.pexists (cfgW.skill_path ++ ["references"]) =
      stD.fs.pexists (cfgD.skill_path ++ ["references"]))
    (hwalk : stW.fs.filesUnder (cfgW.skill_path ++ ["references"]) =
      stD.fs.filesUnder (cfgD.skill_path ++ ["references"]))
    (h1 : stD.changes = stW.changes) (h2 : stD.warnings = stW.warnings) :
    (bundle_references cfgD out stD).changes = (bundle_references cfgW out stW).changes ∧
    (bundle_references cfgD out stD).warnings = (bundle_references cfgW out stW).warnings := by
  simp only [bundle_references]
  rw [hsp] at hpe hwalk
  cases hp : stD.fs.pexists (cfgD.skill_path ++ ["references"]) with
  | false =>
    rw [hp] at hpe
    rw [hsp, hpe]
    simp [h1, h2]
  | true =>
    rw [hp] at hpe
    rw [hsp, hpe]
    simp only [Bool.not_true, Bool.false_eq_true, if_false]
    rw [hwalk]
    have hfold := foldl_bundleStep_rel cfgD cfgW out hsp
      (stD.fs.filesUnder (cfgD.skill_path ++ ["references"])) (stD, 0, 0) (stW, 0, 0) h1 h2 rfl
    rcases hfold with ⟨hc, hw, hs⟩
    rw [hs]
    constructor
    · split <;> simpa using hc
    · split <;> simpa using hw

theorem convert_skill_md_components (yi : YamlImpl) (cfg : Config) (out : FPath) (st : St)
    (c : String) (h : st.fs.lookupFile (cfg.skill_path ++ ["SKILL.md"]) = some (.text c)) :
    ∃ st3, convert_skill_md yi cfg out st = .ok st3 ∧
      st3.changes = st.changes ++ (clean_frontmatter cfg.keep_tools (parse_frontmatter yi c).1).2
        ++ (clean_content (parse_frontmatter yi c).2).2.1 ∧
      st3.warnings = st.warnings ++ (clean_content (parse_frontmatter yi c).2).2.2 ∧
      (cfg.dry_run = true → st3.fs = st.fs) ∧
      (cfg.dry_run = false →
        st3.fs = st.fs.writeFile (out ++ ["SKILL.md"])
          (.text ("---\n" ++
            yi.dump (clean_frontmatter cfg.keep_tools (parse_frontmatter yi c).1).1 ++ "---\n" ++
            (clean_content (parse_frontmatter yi c).2).1))) := by
  unfold convert_skill_md
  rw [h]
  refine ⟨_, rfl, ?_, ?_, ?_, ?_⟩
  · split <;> rfl
  · split <;> rfl
  · intro hd
    rw [hd, if_pos rfl]
  · intro hd
    rw [hd, if_neg Bool.false_ne_true]

/-- Claim C2 as amended: with the staging directory not aliasing into the
source bundle, a dry-run conversion and a non-dry-run conversion of the
same input produce exactly the same ordered warning list and the same
ordered change list up to the single final zip-creation entry, which only
the non-dry-run conversion appends. -/
theorem C2_amended (yi : YamlImpl) (cfgD : Config) (st : St) (c : String)
    (hdry : cfgD.dry_run = true)
    (hval : (validate_skill cfgD st.fs).1 = true)
    (hread : st.fs.lookupFile (cfgD.skill_path ++ ["SKILL.md"]) = some (.text c))
    (hd1 : ¬ tempDirOf cfgD <+: cfgD.skill_path)
    (hd2 : ¬ cfgD.skill_path <+: tempDirOf cfgD) :
    (convert yi cfgD none st).2.warnings =
      (convert yi { cfgD with dry_run := false } none st).2.warnings ∧
    ∃ k, (convert yi { cfgD with dry_run := false } none st).2.changes =
      (convert yi cfgD none st).2.changes ++
        [Change.createdZip (pathName cfgD.skill_path ++ ".zip") k] := by
  set cfgW : Config := { cfgD with dry_run := false } with hcfgW
  -- the prepared staging state is the same for both runs
  have hplD : (prepStaging cfgD (stPrint cfgD st)).fs.lookupFile
      (cfgD.skill_path ++ ["SKILL.md"]) = some (.text c) := by
    rw [prepStaging_lookup cfgD _ _ (not_prefix_append_of_disjoint hd1 hd2 ["SKILL.md"])]
    exact hread
  have hsame : prepStaging cfgW (stPrint cfgW st) = prepStaging cfgD (stPrint cfgD st) := rfl
  -- transform step, both modes
  obtain ⟨stD3, hD3, hD3c, hD3w, hD3dry, _⟩ :=
    convert_skill_md_components yi cfgD (convertedDirOf cfgD)
      (prepStaging cfgD (stPrint cfgD st)) c hplD
  obtain ⟨stW3, hW3, hW3c, hW3w, _, hW3wet⟩ :=
    convert_skill_md_components yi cfgW (convertedDirOf cfgW)
      (prepStaging cfgW (stPrint cfgW st)) c (by rw [hsame]; exact hplD)
  have hD3fs : stD3.fs = (prepStaging cfgD (stPrint cfgD st)).fs := hD3dry hdry
  have hW3fs : stW3.fs = (prepStaging cfgD (stPrint cfgD st)).fs.writeFile
      (convertedDirOf cfgD ++ ["SKILL.md"])
      (.text ("---\n" ++
        yi.dump (clean_frontmatter cfgD.keep_tools (parse_frontmatter yi c).1).1 ++ "---\n" ++
        (clean_content (parse_frontmatter yi c).2).1)) := hW3wet rfl
  -- the copy step sees identical reference trees and equal accumulators
  have hwrite_not : ¬ (cfgD.skill_path ++ ["references"]) <+:
      (convertedDirOf cfgD ++ ["SKILL.md"]) := by
    have : convertedDirOf cfgD ++ ["SKILL.md"] =
        tempDirOf cfgD ++ ([pathName cfgD.skill_path] ++ ["SKILL.md"]) := by
      simp [convertedDirOf]
    rw [this]
    exact ext_not_prefix_ext_of_disjoint hd2 hd1 _ _
  have hwrite_ne : ¬ (cfgD.skill_path ++ ["references"]) =
      (convertedDirOf cfgD ++ ["SKILL.md"]) := by
    intro he
    exact hwrite_not (he ▸ List.prefix_refl _)
  have hpe : stW3.fs.pexists (cfgW.skill_path ++ ["references"]) =
      stD3.fs.pexists (cfgD.skill_path ++ ["references"]) := by
    show stW3.fs.pexists (cfgD.skill_path ++ ["references"]) = _
    rw [hW3fs, hD3fs, pexists_write_other _ _ _ _ hwrite_ne]
  have hwalk : stW3.fs.filesUnder (cfgW.skill_path ++ ["references"]) =
      stD3.fs.filesUnder (cfgD.skill_path ++ ["references"]) := by
    show stW3.fs.filesUnder (cfgD.skill_path ++ ["references"]) = _
    rw [hW3fs, hD3fs, filesUnder_write_other _ _ _ _ hwrite_not]
  have hch : stD3.changes = stW3.changes := by
    rw [hD3c, hW3c]
    rfl
  have hwa : stD3.warnings = stW3.warnings := by
    rw [hD3w, hW3w]
    rfl
  obtain ⟨hbc, hbw⟩ := bundle_references_rel cfgD cfgW (convertedDirOf cfgD) stD3 stW3 rfl
    hpe hwalk hch hwa
  -- both bodies succeed
  have hbodyD : convertBody yi cfgD none (prepStaging cfgD (stPrint cfgD st)) =
      .ok (create_zip cfgD (tempDirOf cfgD)
        (bundle_references cfgD (convertedDirOf cfgD) stD3)) := by
    unfold convertBody
    rw [show injAt FailStep.transform none = none from rfl, hD3]
    rfl
  have hbodyW : convertBody yi cfgW none (prepStaging cfgW (stPrint cfgW st)) =
      .ok (create_zip cfgW (tempDirOf cfgW)
        (bundle_references cfgW (convertedDirOf cfgW) stW3)) := by
    unfold convertBody
    rw [show injAt FailStep.transform none = none from rfl, hW3]
    rfl
  have hconvD := convert_eq_of_ok yi cfgD none st hval _ hbodyD
  have hconvW := convert_eq_of_ok yi cfgW none st hval _ hbodyW
  rw [hconvD, hconvW]
  have hzipD := create_zip_dry cfgD (tempDirOf cfgD)
    (bundle_references cfgD (convertedDirOf cfgD) stD3) hdry
  obtain ⟨k, hkc, hkw⟩ := create_zip_wet cfgW (tempDirOf cfgW)
    (bundle_references cfgW (convertedDirOf cfgW) stW3) rfl
  constructor
  · show (finallyCleanup cfgD _).warnings = (finallyCleanup cfgW _).warnings
    rw [finallyCleanup_warnings, finallyCleanup_warnings, hzipD]
    show (bundle_references cfgD (convertedDirOf cfgD) stD3).warnings = _
    rw [hkw]
    exact hbw
  · refine ⟨k, ?_⟩
    show (finallyCleanup cfgW _).changes = (finallyCleanup cfgD _).changes ++ _
    rw [finallyCleanup_changes, finallyCleanup_changes, hzipD]
    show _ = (bundle_references cfgD (convertedDirOf cfgD) stD3).changes ++ _
    rw [hkc, hbc]
    rfl

/-- Witness for the amended C2 at the demo bundle. -/
theorem C2_amended_witness :
    cfgDemoDry.dry_run = true ∧ (validate_skill cfgDemoDry (st0 fsDemo).fs).1 = true ∧
      (st0 fsDemo).fs.lookupFile (cfgDemoDry.skill_path ++ ["SKILL.md"]) =
        some (.text demoSkillMd) ∧
      (¬ tempDirOf cfgDemoDry <+: cfgDemoDry.skill_path) ∧
      (¬ cfgDemoDry.skill_path <+: tempDirOf cfgDemoDry) ∧
      ((convert yamlTest cfgDemoDry none (st0 fsDemo)).2.warnings =
        (convert yamlTest { cfgDemoDry with dry_run := false } none (st0 fsDemo)).2.warnings ∧
      ∃ k, (convert yamlTest { cfgDemoDry with dry_run := false } none (st0 fsDemo)).2.changes =
        (convert yamlTest cfgDemoDry none (st0 fsDemo)).2.changes ++
          [Change.createdZip (pathName cfgDemoDry.skill_path ++ ".zip") k]) :=
  ⟨rfl, by decide, by decide,
    (sw_false_iff (tempDirOf cfgDemoDry) cfgDemoDry.skill_path).1 (by decide),
    (sw_false_iff cfgDemoDry.skill_path (tempDirOf cfgDemoDry)).1 (by decide),
    C2_amended yamlTest cfgDemoDry (st0 fsDemo) demoSkillMd rfl (by decide) (by decide)
      ((sw_false_iff (tempDirOf cfgDemoDry) cfgDemoDry.skill_path).1 (by decide))
      ((sw_false_iff cfgDemoDry.skill_path (tempDirOf cfgDemoDry)).1 (by decide))⟩

theorem lookupFile_removeFile_other (fs : FS) (p q : FPath) (h : ¬ q = p) :
    (fs.removeFile p).lookupFile q = fs.lookupFile q := by
  simp only [FS.removeFile, FS.lookupFile]
  rw [find?_filter_keep _ _ (fun kv hkv => by
    have h2 : kv.1 = q := by simpa using hkv
    rw [h2, Bool.not_eq_true', beq_eq_false_iff_ne]
    exact h)]

theorem mem_filesUnder_removeFile (fs : FS) (p q : FPath) (kv : FPath × FData)
    (h : kv ∈ (fs.removeFile p).filesUnder q) : kv ∈ fs.filesUnder q := by
  rw [mem_filesUnder_iff] at h ⊢
  rcases h with ⟨hmem, h2, h3⟩
  simp only [FS.removeFile, List.mem_filter] at hmem
  exact ⟨hmem.1, h2, h3⟩

theorem tempDir_ne_zipPath (cfg : Config) :
    ¬ tempDirOf cfg <+: cfg.output_dir ++ [pathName cfg.skill_path ++ ".zip"] := by
  intro h
  have hlen : (tempDirOf cfg).length =
      (cfg.output_dir ++ [pathName cfg.skill_path ++ ".zip"]).length := by
    simp [tempDirOf]
  have heq := h.eq_of_length hlen
  unfold tempDirOf at heq
  have h2 := List.append_cancel_left heq
  have h3 : "." ++ pathName cfg.skill_path ++ "_temp" =
      pathName cfg.skill_path ++ ".zip" := by
    simpa using h2
  have h4 := congrArg String.length h3
  simp [String.length_append] at h4
  rw [show (".".length) = 1 from rfl, show ("_temp".length) = 5 from rfl,
    show (".zip".length) = 4 from rfl] at h4
  omega

theorem filesUnder_write_fresh (fs : FS) (q p : FPath) (d : FData)
    (h1 : q <+: p) (h2 : ¬ p = q) (h0 : fs.filesUnder q = []) :
    (fs.writeFile p d).filesUnder q = [(p, d)] := by
  simp only [FS.writeFile, FS.filesUnder] at h0 ⊢
  rw [List.filter_cons]
  have hc : (startsWithPath q (p, d).1 && !((p, d).1 == q)) = true := by
    simp only [(sw_iff q p).2 h1, Bool.true_and]
    simpa using h2
  rw [hc, if_pos rfl]
  have hsub : ((fs.files.filter (fun kv => !(kv.1 == p))).filter
      (fun kv => startsWithPath q kv.1 && !(kv.1 == q))).Sublist
      (fs.files.filter (fun kv => startsWithPath q kv.1 && !(kv.1 == q))) :=
    (List.filter_sublist _).filter _
  rw [h0] at hsub
  rw [List.sublist_nil.1 hsub]

theorem mem_filesUnder_of_ancestor (fs : FS) (p q : FPath) (kv : FPath × FData)
    (hpq : p <+: q) (hlen : p.length < q.length)
    (h : kv ∈ fs.filesUnder q) : kv ∈ fs.filesUnder p := by
  rw [mem_filesUnder_iff] at h ⊢
  rcases h with ⟨hmem, h2, h3⟩
  refine ⟨hmem, hpq.trans h2, ?_⟩
  intro he
  have h4 := h2.length_le
  rw [he] at h4
  omega

theorem rel_shape (skill : FPath) (x : FPath) (h : skill ++ ["references"] <+: x) :
    ∃ r, x.drop skill.length = "references" :: r ∧ skill ++ ("references" :: r) = x := by
  rcases h with ⟨t, ht⟩
  refine ⟨t, ?_, ?_⟩
  · rw [← ht, List.append_assoc, List.drop_left]
    rfl
  · rw [← ht, List.append_assoc]
    rfl

theorem bundleStep_fs_cases (cfg : Config) (out : FPath) (acc : St × Nat × Nat)
    (rf : FPath × FData) (hwet : cfg.dry_run = false) :
    (bundleStep cfg out acc rf).1.fs = acc.1.fs ∨
      (bundleStep cfg out acc rf).1.fs =
        (acc.1.fs.mkdirParents (out ++ rf.1.drop cfg.skill_path.length).dropLast).writeFile
          (out ++ rf.1.drop cfg.skill_path.length) rf.2 := by
  simp only [bundleStep, hwet, Bool.false_eq_true, if_false]
  split
  · exact Or.inl rfl
  · split
    · exact Or.inl rfl
    · exact Or.inr rfl

theorem foldl_bundleStep_inv (cfg : Config) (src : List (FPath × FData)) (doc : FData)
    (hwet : cfg.dry_run = false) :
    ∀ (walk : List (FPath × FData)) (acc : St × Nat × Nat),
      (∀ rf ∈ walk, cfg.skill_path ++ ["references"] <+: rf.1 ∧ rf.1 ∈ src.map Prod.fst) →
      acc.1.fs.lookupFile (convertedDirOf cfg ++ ["SKILL.md"]) = some doc →
      (∀ kv ∈ acc.1.fs.filesUnder (tempDirOf cfg),
        kv.1 = convertedDirOf cfg ++ ["SKILL.md"] ∨
        ∃ r, kv.1 = convertedDirOf cfg ++ ("references" :: r) ∧
          (cfg.skill_path ++ ("references" :: r)) ∈ src.map Prod.fst) →
      (walk.foldl (bundleStep cfg (convertedDirOf cfg)) acc).1.fs.lookupFile
          (convertedDirOf cfg ++ ["SKILL.md"]) = some doc ∧
      ∀ kv ∈ (walk.foldl (bundleStep cfg (convertedDirOf cfg)) acc).1.fs.filesUnder
          (tempDirOf cfg),
        kv.1 = convertedDirOf cfg ++ ["SKILL.md"] ∨
        ∃ r, kv.1 = convertedDirOf cfg ++ ("references" :: r) ∧
          (cfg.skill_path ++ ("references" :: r)) ∈ src.map Prod.fst := by
  intro walk
  induction walk with
  | nil => intro acc hw hl hi; exact ⟨hl, hi⟩
  | cons rf rest ih =>
    intro acc hw hl hi
    rw [List.foldl_cons]
    have hrf := hw rf (List.mem_cons_self _ _)
    rcases rel_shape cfg.skill_path rf.1 hrf.1 with ⟨r0, hr0, hsr0⟩
    have hne : ¬ (convertedDirOf cfg ++ ["SKILL.md"]) =
        convertedDirOf cfg ++ rf.1.drop cfg.skill_path.length := by
      rw [hr0]
      intro he
      have h2 := List.append_cancel_left he
      injection h2 with h3 _
      exact absurd h3 (by decide)
    have hstep := bundleStep_fs_cases cfg (convertedDirOf cfg) acc rf hwet
    have hl2 : (bundleStep cfg (convertedDirOf cfg) acc rf).1.fs.lookupFile
        (convertedDirOf cfg ++ ["SKILL.md"]) = some doc := by
      rcases hstep with hfs | hfs
      · rw [hfs]; exact hl
      · rw [hfs, lookupFile_write_other _ _ _ _ hne, lookupFile_mkdir]; exact hl
    have hi2 : ∀ kv ∈ (bundleStep cfg (convertedDirOf cfg) acc rf).1.fs.filesUnder
        (tempDirOf cfg),
        kv.1 = convertedDirOf cfg ++ ["SKILL.md"] ∨
        ∃ r, kv.1 = convertedDirOf cfg ++ ("references" :: r) ∧
          (cfg.skill_path ++ ("references" :: r)) ∈ src.map Prod.fst := by
      rcases hstep with hfs | hfs
      · rw [hfs]; exact hi
      · rw [hfs]
        intro kv hkv
        rcases mem_filesUnder_write _ _ _ _ _ hkv with rfl | hkv2
        · refine Or.inr ⟨r0, ?_, ?_⟩
          · show convertedDirOf cfg ++ rf.1.drop cfg.skill_path.length = _
            rw [hr0]
          · rw [hsr0]; exact hrf.2
        · rw [filesUnder_mkdir] at hkv2
          exact hi kv hkv2
    exact ih _ (fun s hs => hw s (List.mem_cons_of_mem _ hs)) hl2 hi2

theorem bundle_references_inv (cfg : Config) (src : List (FPath × FData)) (doc : FData)
    (st : St) (hwet : cfg.dry_run = false)
    (hwalk : ∀ rf ∈ st.fs.filesUnder (cfg.skill_path ++ ["references"]),
      cfg.skill_path ++ ["references"] <+: rf.1 ∧ rf.1 ∈ src.map Prod.fst)
    (hl : st.fs.lookupFile (convertedDirOf cfg ++ ["SKILL.md"]) = some doc)
    (hi : ∀ kv ∈ st.fs.filesUnder (tempDirOf cfg),
      kv.1 = convertedDirOf cfg ++ ["SKILL.md"] ∨
      ∃ r, kv.1 = convertedDirOf cfg ++ ("references" :: r) ∧
        (cfg.skill_path ++ ("references" :: r)) ∈ src.map Prod.fst) :
    (bundle_references cfg (convertedDirOf cfg) st).fs.lookupFile
        (convertedDirOf cfg ++ ["SKILL.md"]) = some doc ∧
    ∀ kv ∈ (bundle_references cfg (convertedDirOf cfg) st).fs.filesUnder (tempDirOf cfg),
      kv.1 = convertedDirOf cfg ++ ["SKILL.md"] ∨
      ∃ r, kv.1 = convertedDirOf cfg ++ ("references" :: r) ∧
        (cfg.skill_path ++ ("references" :: r)) ∈ src.map Prod.fst := by
  simp only [bundle_references]
  split
  · exact ⟨hl, hi⟩
  · have hf := foldl_bundleStep_inv cfg src doc hwet
      (st.fs.filesUnder (cfg.skill_path ++ ["references"])) (st, 0, 0) hwalk hl hi
    split
    · exact hf
    · exact hf

theorem create_zip_wet_fs (cfg : Config) (temp : FPath) (st : St) (hwet : cfg.dry_run = false) :
    ∃ fs1 : FS,
      (create_zip cfg temp st).2.fs =
        fs1.writeFile (cfg.output_dir ++ [pathName cfg.skill_path ++ ".zip"])
          (.zipArc ((fs1.filesUnder (temp ++ [pathName cfg.skill_path])).map
            (fun kv => (kv.1.drop temp.length, kv.2.render)))) ∧
      (fs1 = st.fs ∨ fs1 = st.fs.removeFile
        (cfg.output_dir ++ [pathName cfg.skill_path ++ ".zip"])) := by
  simp only [create_zip, hwet, Bool.false_eq_true, if_false]
  split
  · exact ⟨_, rfl, Or.inr rfl⟩
  · exact ⟨_, rfl, Or.inl rfl⟩

theorem finallyCleanup_lookup (cfg : Config) (s : St) (q : FPath)
    (h : ¬ tempDirOf cfg <+: q) :
    (finallyCleanup cfg s).fs.lookupFile q = s.fs.lookupFile q := by
  simp only [finallyCleanup]
  split
  · exact lookupFile_rmtree_other _ _ _ h
  · rfl

/-- Claim C8 as amended: in a successful non-dry-run conversion (with the
staging directory disjoint from the source bundle and no stray files below
the staging path), the produced archive exists at the output path, its
entries include the rewritten SKILL.md under the skill-name directory, and
every entry path is the skill name followed by either SKILL.md or the
source-relative path of a reference file present in the source tree — the
staging directory's temporary name is never introduced by the staging
step itself. -/
theorem C8_amended (yi : YamlImpl) (cfg : Config) (st : St) (c : String)
    (hwet : cfg.dry_run = false)
    (hval : (validate_skill cfg st.fs).1 = true)
    (hread : st.fs.lookupFile (cfg.skill_path ++ ["SKILL.md"]) = some (.text c))
    (hd1 : ¬ tempDirOf cfg <+: cfg.skill_path)
    (hd2 : ¬ cfg.skill_path <+: tempDirOf cfg)
    (hclean : st.fs.filesUnder (tempDirOf cfg) = []) :
    ∃ es : List (FPath × String),
      (convert yi cfg none st).2.fs.lookupFile
          (cfg.output_dir ++ [pathName cfg.skill_path ++ ".zip"]) = some (.zipArc es) ∧
      [pathName cfg.skill_path, "SKILL.md"] ∈ es.map Prod.fst ∧
      ∀ e ∈ es, ∃ q, e.1 = pathName cfg.skill_path :: q ∧
        (q = ["SKILL.md"] ∨ ∃ r, q = "references" :: r ∧
          (cfg.skill_path ++ ("references" :: r)) ∈ st.fs.files.map Prod.fst) := by
  have htc : tempDirOf cfg <+: convertedDirOf cfg := List.prefix_append _ _
  have htclen : (convertedDirOf cfg).length = (tempDirOf cfg).length + 1 := by
    simp [convertedDirOf]
  have hdropconv : ∀ x : FPath,
      (convertedDirOf cfg ++ x).drop (tempDirOf cfg).length =
        pathName cfg.skill_path :: x := by
    intro x
    show ((tempDirOf cfg ++ [pathName cfg.skill_path]) ++ x).drop (tempDirOf cfg).length = _
    rw [List.append_assoc, List.drop_left]
    rfl
  have htw : tempDirOf cfg <+: convertedDirOf cfg ++ ["SKILL.md"] :=
    htc.trans (List.prefix_append _ _)
  have hwne_temp : ¬ (convertedDirOf cfg ++ ["SKILL.md"]) = tempDirOf cfg := by
    intro he
    have h1 := congrArg List.length he
    rw [List.length_append, htclen] at h1
    simp only [List.length_cons, List.length_nil] at h1
    omega
  have hrefs_not_pre : ¬ tempDirOf cfg <+: cfg.skill_path ++ ["references"] :=
    not_prefix_append_of_disjoint hd1 hd2 ["references"]
  have hrefs_not_pre2 : ¬ cfg.skill_path ++ ["references"] <+: tempDirOf cfg := by
    intro h
    exact hd2 ((List.prefix_append _ _).trans h)
  have hplook : (prepStaging cfg (stPrint cfg st)).fs.lookupFile
      (cfg.skill_path ++ ["SKILL.md"]) = some (.text c) := by
    rw [prepStaging_lookup cfg _ _ (not_prefix_append_of_disjoint hd1 hd2 ["SKILL.md"])]
    exact hread
  have hpfU_temp : (prepStaging cfg (stPrint cfg st)).fs.filesUnder (tempDirOf cfg) = [] := by
    rw [prepStaging_fs, filesUnder_mkdir]
    split
    · exact filesUnder_rmtree_under _ _ _ (List.prefix_refl _)
    · exact hclean
  have hpfU_refs : (prepStaging cfg (stPrint cfg st)).fs.filesUnder
      (cfg.skill_path ++ ["references"]) =
      st.fs.filesUnder (cfg.skill_path ++ ["references"]) := by
    rw [prepStaging_fs, filesUnder_mkdir]
    split
    · exact filesUnder_rmtree_disjoint _ _ _ hrefs_not_pre hrefs_not_pre2
    · rfl
  obtain ⟨st3, h3ok, _, _, _, h3wet⟩ :=
    convert_skill_md_components yi cfg (convertedDirOf cfg)
      (prepStaging cfg (stPrint cfg st)) c hplook
  obtain ⟨doc, h3fs⟩ : ∃ d : FData, st3.fs = (prepStaging cfg (stPrint cfg st)).fs.writeFile
      (convertedDirOf cfg ++ ["SKILL.md"]) d := ⟨_, h3wet hwet⟩
  have hlook3 : st3.fs.lookupFile (convertedDirOf cfg ++ ["SKILL.md"]) = some doc := by
    rw [h3fs]
    exact lookupFile_write_self _ _ _
  have hfU3_temp : st3.fs.filesUnder (tempDirOf cfg) =
      [(convertedDirOf cfg ++ ["SKILL.md"], doc)] := by
    rw [h3fs]
    exact filesUnder_write_fresh _ _ _ _ htw hwne_temp hpfU_temp
  have hwnot : ¬ (cfg.skill_path ++ ["references"]) <+:
      (convertedDirOf cfg ++ ["SKILL.md"]) := by
    have he : convertedDirOf cfg ++ ["SKILL.md"] =
        tempDirOf cfg ++ ([pathName cfg.skill_path] ++ ["SKILL.md"]) := by
      simp [convertedDirOf]
    rw [he]
    exact ext_not_prefix_ext_of_disjoint hd2 hd1 _ _
  have hfU3_refs : st3.fs.filesUnder (cfg.skill_path ++ ["references"]) =
      st.fs.filesUnder (cfg.skill_path ++ ["references"]) := by
    rw [h3fs, filesUnder_write_other _ _ _ _ hwnot]
    exact hpfU_refs
  have hwalk : ∀ rf ∈ st3.fs.filesUnder (cfg.skill_path ++ ["references"]),
      cfg.skill_path ++ ["references"] <+: rf.1 ∧ rf.1 ∈ st.fs.files.map Prod.fst := by
    intro rf hrf
    rw [hfU3_refs, mem_filesUnder_iff] at hrf
    exact ⟨hrf.2.1, List.mem_map_of_mem _ hrf.1⟩
  have hinv3 : ∀ kv ∈ st3.fs.filesUnder (tempDirOf cfg),
      kv.1 = convertedDirOf cfg ++ ["SKILL.md"] ∨
      ∃ r, kv.1 = convertedDirOf cfg ++ ("references" :: r) ∧
        (cfg.skill_path ++ ("references" :: r)) ∈ st.fs.files.map Prod.fst := by
    intro kv hkv
    rw [hfU3_temp] at hkv
    rcases List.mem_singleton.1 hkv with rfl
    exact Or.inl rfl
  obtain ⟨hlook4, hinv4⟩ :=
    bundle_references_inv cfg st.fs.files doc st3 hwet hwalk hlook3 hinv3
  obtain ⟨fs1, hfs5, hfs1⟩ := create_zip_wet_fs cfg (tempDirOf cfg)
    (bundle_references cfg (convertedDirOf cfg) st3) hwet
  have hzipne : ¬ (convertedDirOf cfg ++ ["SKILL.md"]) =
      cfg.output_dir ++ [pathName cfg.skill_path ++ ".zip"] := by
    intro he
    exact tempDir_ne_zipPath cfg (he ▸ htw)
  have hlook1 : fs1.lookupFile (convertedDirOf cfg ++ ["SKILL.md"]) = some doc := by
    rcases hfs1 with rfl | rfl
    · exact hlook4
    · rw [lookupFile_removeFile_other _ _ _ hzipne]
      exact hlook4
  have hsub1 : ∀ kv ∈ fs1.filesUnder (convertedDirOf cfg),
      kv ∈ (bundle_references cfg (convertedDirOf cfg) st3).fs.filesUnder
        (convertedDirOf cfg) := by
    rcases hfs1 with rfl | rfl
    · exact fun kv h => h
    · exact fun kv h => mem_filesUnder_removeFile _ _ _ _ h
  have hconv_w : convertedDirOf cfg <+: convertedDirOf cfg ++ ["SKILL.md"] :=
    List.prefix_append _ _
  have hwne_conv : (convertedDirOf cfg ++ ["SKILL.md"]) ≠ convertedDirOf cfg := by
    intro he
    have h1 := congrArg List.length he
    rw [List.length_append] at h1
    simp only [List.length_cons, List.length_nil] at h1
    omega
  have hmemfU : (convertedDirOf cfg ++ ["SKILL.md"], doc) ∈
      fs1.filesUnder (convertedDirOf cfg) :=
    (mem_filesUnder_iff _ _ _).2 ⟨lookupFile_mem _ _ _ hlook1, hconv_w, hwne_conv⟩
  have hbody : convertBody yi cfg none (prepStaging cfg (stPrint cfg st)) =
      .ok (create_zip cfg (tempDirOf cfg) (bundle_references cfg (convertedDirOf cfg) st3)) := by
    unfold convertBody
    rw [show injAt FailStep.transform none = none from rfl, h3ok]
    rfl
  have hconv := convert_eq_of_ok yi cfg none st hval _ hbody
  refine ⟨(fs1.filesUnder (tempDirOf cfg ++ [pathName cfg.skill_path])).map
      (fun kv => (kv.1.drop (tempDirOf cfg).length, kv.2.render)), ?_, ?_, ?_⟩
  · rw [hconv]
    show (finallyCleanup cfg (create_zip cfg (tempDirOf cfg)
        (bundle_references cfg (convertedDirOf cfg) st3)).2).fs.lookupFile
      (cfg.output_dir ++ [pathName cfg.skill_path ++ ".zip"]) = _
    rw [finallyCleanup_lookup cfg _ _ (tempDir_ne_zipPath cfg), hfs5]
    exact lookupFile_write_self _ _ _
  · refine List.mem_map.2 ⟨((convertedDirOf cfg ++ ["SKILL.md"]).drop (tempDirOf cfg).length,
      doc.render), List.mem_map_of_mem _ hmemfU, hdropconv ["SKILL.md"]⟩
  · intro e he
    rcases List.mem_map.1 he with ⟨kv, hkv, rfl⟩
    have hkv4 : kv ∈ (bundle_references cfg (convertedDirOf cfg) st3).fs.filesUnder
        (convertedDirOf cfg) := hsub1 kv hkv
    have hkvt : kv ∈ (bundle_references cfg (convertedDirOf cfg) st3).fs.filesUnder
        (tempDirOf cfg) :=
      mem_filesUnder_of_ancestor _ _ _ _ htc (by rw [htclen]; omega) hkv4
    rcases hinv4 kv hkvt with hk | ⟨r, hk, hsrc⟩
    · refine ⟨["SKILL.md"], ?_, Or.inl rfl⟩
      show kv.1.drop (tempDirOf cfg).length = _
      rw [hk, hdropconv]
    · refine ⟨"references" :: r, ?_, Or.inr ⟨r, rfl, hsrc⟩⟩
      show kv.1.drop (tempDirOf cfg).length = _
      rw [hk, hdropconv]

/-- Witness for the amended C8 at the demo bundle. -/
theorem C8_amended_witness :
    cfgDemo.dry_run = false ∧ (validate_skill cfgDemo (st0 fsDemo).fs).1 = true ∧
      (st0 fsDemo).fs.lookupFile (cfgDemo.skill_path ++ ["SKILL.md"]) =
        some (.text demoSkillMd) ∧
      (¬ tempDirOf cfgDemo <+: cfgDemo.skill_path) ∧
      (¬ cfgDemo.skill_path <+: tempDirOf cfgDemo) ∧
      (st0 fsDemo).fs.filesUnder (tempDirOf cfgDemo) = [] ∧
      ∃ es : List (FPath × String),
        (convert yamlTest cfgDemo none (st0 fsDemo)).2.fs.lookupFile
            (cfgDemo.output_dir ++ [pathName cfgDemo.skill_path ++ ".zip"]) =
          some (.zipArc es) ∧
        [pathName cfgDemo.skill_path, "SKILL.md"] ∈ es.map Prod.fst ∧
        ∀ e ∈ es, ∃ q, e.1 = pathName cfgDemo.skill_path :: q ∧
          (q = ["SKILL.md"] ∨ ∃ r, q = "references" :: r ∧
            (cfgDemo.skill_path ++ ("references" :: r)) ∈
              (st0 fsDemo).fs.files.map Prod.fst) :=
  ⟨rfl, by decide, by decide,
    (sw_false_iff _ _).1 (by decide), (sw_false_iff _ _).1 (by decide), by decide,
    C8_amended yamlTest cfgDemo (st0 fsDemo) demoSkillMd rfl (by decide) (by decide)
      ((sw_false_iff _ _).1 (by decide)) ((sw_false_iff _ _).1 (by decide)) (by decide)⟩

theorem take_all_of_le_takeWhile (p : Char → Bool) :
    ∀ (s : List Char) (j : Nat), j ≤ (s.takeWhile p).length → (s.take j).all p = true := by
  intro s
  induction s with
  | nil => intro j h; simp [List.take_nil]
  | cons x s ih =>
    intro j h
    cases j with
    | zero => simp
    | succ j2 =>
      rw [List.takeWhile_cons] at h
      cases hp : p x with
      | false => rw [hp] at h; simp at h
      | true =>
        rw [hp, if_pos rfl, List.length_cons] at h
        rw [List.take_succ_cons, List.all_cons, hp, Bool.true_and]
        exact ih j2 (Nat.le_of_succ_le_succ h)

theorem le_takeWhile_of_take_all (p : Char → Bool) :
    ∀ (s : List Char) (j : Nat), j ≤ s.length → (s.take j).all p = true →
      j ≤ (s.takeWhile p).length := by
  intro s
  induction s with
  | nil => intro j h _; simpa using h
  | cons x s ih =>
    intro j h hall
    cases j with
    | zero => simp
    | succ j2 =>
      rw [List.take_succ_cons, List.all_cons, Bool.and_eq_true] at hall
      rw [List.takeWhile_cons, if_pos hall.1, List.length_cons]
      exact Nat.succ_le_succ (ih j2 (Nat.le_of_succ_le_succ h) hall.2)

theorem findSome_isSome_of_mem {α β} (f : α → Option β) :
    ∀ (l : List α) (a : α), a ∈ l → (f a).isSome = true →
      (l.findSome? f).isSome = true := by
  intro l
  induction l with
  | nil => intro a ha; simp at ha
  | cons b l ih =>
    intro a ha hfa
    rw [List.findSome?_cons]
    cases hfb : f b with
    | some c => simp
    | none =>
      rcases List.mem_cons.1 ha with rfl | ha2
      · rw [hfb] at hfa; simp at hfa
      · exact ih a ha2 hfa

theorem Matches_len : ∀ {pat : List RItem} {t : List Char} {m : Nat},
    Matches pat t m → m ≤ t.length := by
  intro pat t m h
  induction h with
  | nil s => exact Nat.zero_le _
  | lit c rest x s n hx h2 ih => exact Nat.succ_le_succ ih
  | plus p rest s j n h1 h2 h3 h4 ih =>
    rw [List.length_drop] at ih
    omega
  | star p rest s j n h2 h3 h4 ih =>
    rw [List.length_drop] at ih
    omega
  | lazyStar p rest s j n h2 h3 h4 ih =>
    rw [List.length_drop] at ih
    omega

theorem Matches_append_ext (v : List Char) :
    ∀ {pat : List RItem} {t : List Char} {m : Nat},
      Matches pat t m → Matches pat (t ++ v) m := by
  intro pat t m h
  induction h with
  | nil s => exact Matches.nil _
  | lit c rest x s n hx h2 ih => exact Matches.lit c rest x (s ++ v) n hx ih
  | plus p rest s j n h1 h2 h3 h4 ih =>
    refine Matches.plus p rest (s ++ v) j n h1 ?_ ?_ ?_
    · rw [List.length_append]; omega
    · rw [List.take_append_of_le_length h2]; exact h3
    · rw [List.drop_append_of_le_length h2]; exact ih
  | star p rest s j n h2 h3 h4 ih =>
    refine Matches.star p rest (s ++ v) j n ?_ ?_ ?_
    · rw [List.length_append]; omega
    · rw [List.take_append_of_le_length h2]; exact h3
    · rw [List.drop_append_of_le_length h2]; exact ih
  | lazyStar p rest s j n h2 h3 h4 ih =>
    refine Matches.lazyStar p rest (s ++ v) j n ?_ ?_ ?_
    · rw [List.length_append]; omega
    · rw [List.take_append_of_le_length h2]; exact h3
    · rw [List.drop_append_of_le_length h2]; exact ih

theorem Matches_take : ∀ {pat : List RItem} {t : List Char} {m : Nat},
    Matches pat t m → Matches pat (t.take m) m := by
  intro pat t m h
  induction h with
  | nil s => exact Matches.nil _
  | lit c rest x s n hx h2 ih =>
    rw [List.take_succ_cons]
    exact Matches.lit c rest x (s.take n) n hx ih
  | plus p rest s j n h1 h2 h3 h4 ih =>
    refine Matches.plus p rest (s.take (j + n)) j n h1 ?_ ?_ ?_
    · rw [List.length_take]; omega
    · rw [List.take_take, min_eq_left (Nat.le_add_right j n)]; exact h3
    · rw [List.drop_take, Nat.add_sub_cancel_left]; exact ih
  | star p rest s j n h2 h3 h4 ih =>
    refine Matches.star p rest (s.take (j + n)) j n ?_ ?_ ?_
    · rw [List.length_take]; omega
    · rw [List.take_take, min_eq_left (Nat.le_add_right j n)]; exact h3
    · rw [List.drop_take, Nat.add_sub_cancel_left]; exact ih
  | lazyStar p rest s j n h2 h3 h4 ih =>
    refine Matches.lazyStar p rest (s.take (j + n)) j n ?_ ?_ ?_
    · rw [List.length_take]; omega
    · rw [List.take_take, min_eq_left (Nat.le_add_right j n)]; exact h3
    · rw [List.drop_take, Nat.add_sub_cancel_left]; exact ih

theorem Matches_of_take_eq {pat : List RItem} {t t2 : List Char} {m : Nat}
    (h : Matches pat t m) (he : t.take m = t2.take m) : Matches pat t2 m := by
  have h1 := Matches_take h
  rw [he] at h1
  have h2 := Matches_append_ext (t2.drop m) h1
  rwa [List.take_append_drop] at h2

theorem Matches_classW : ∀ {pat : List RItem} {t : List Char} {m : Nat},
    Matches pat t m → (∀ it ∈ pat, classW it) → ∀ c ∈ t.take m, isW c = true := by
  intro pat t m h
  induction h with
  | nil s => intro _ c hc; simp at hc
  | lit c0 rest x s n hx h2 ih =>
    intro hcw c hc
    rw [List.take_succ_cons] at hc
    rcases List.mem_cons.1 hc with rfl | hc2
    · rw [hx]
      exact hcw (.lit c0) (List.mem_cons_self _ _)
    · exact ih (fun it hit => hcw it (List.mem_cons_of_mem _ hit)) c hc2
  | plus p rest s j n h1 h2 h3 h4 ih =>
    intro hcw c hc
    rw [List.take_add] at hc
    rcases List.mem_append.1 hc with hc1 | hc2
    · exact hcw (.plus p) (List.mem_cons_self _ _) c (List.all_eq_true.1 h3 c hc1)
    · exact ih (fun it hit => hcw it (List.mem_cons_of_mem _ hit)) c hc2
  | star p rest s j n h2 h3 h4 ih =>
    intro hcw c hc
    rw [List.take_add] at hc
    rcases List.mem_append.1 hc with hc1 | hc2
    · exact hcw (.star p) (List.mem_cons_self _ _) c (List.all_eq_true.1 h3 c hc1)
    · exact ih (fun it hit => hcw it (List.mem_cons_of_mem _ hit)) c hc2
  | lazyStar p rest s j n h2 h3 h4 ih =>
    intro hcw c hc
    rw [List.take_add] at hc
    rcases List.mem_append.1 hc with hc1 | hc2
    · exact hcw (.lazyStar p) (List.mem_cons_self _ _) c (List.all_eq_true.1 h3 c hc1)
    · exact ih (fun it hit => hcw it (List.mem_cons_of_mem _ hit)) c hc2

theorem prefix_of_take_eq {w t : List Char} {n : Nat} (h : t.take n = w) : w <+: t :=
  ⟨t.drop n, by rw [← h, List.take_append_drop]⟩

theorem Matches_litRun_take : ∀ (w : List Char) {rest : List RItem} {t : List Char} {m : Nat},
    Matches (litRun w ++ rest) t m →
    t.take w.length = w ∧ ∃ m2, Matches rest (t.drop w.length) m2 ∧ m = w.length + m2 := by
  intro w
  induction w with
  | nil =>
    intro rest t m h
    exact ⟨rfl, m, by simpa using h, by simp⟩
  | cons c w ih =>
    intro rest t m h
    have h' : Matches (.lit c :: (litRun w ++ rest)) t m := h
    cases h' with
    | lit c2 rest2 x s n hx h2 =>
      rcases ih h2 with ⟨ht, m2, hm2, hme⟩
      subst hx
      refine ⟨?_, m2, ?_, ?_⟩
      · rw [List.length_cons, List.take_succ_cons, ht]
      · rw [List.length_cons, List.drop_succ_cons]
        exact hm2
      · rw [List.length_cons]; omega

theorem Matches_append_split : ∀ (xs : List RItem) {ys : List RItem} {t : List Char} {m : Nat},
    Matches (xs ++ ys) t m →
    ∃ k k2, Matches xs t k ∧ Matches ys (t.drop k) k2 ∧ m = k + k2 := by
  intro xs
  induction xs with
  | nil =>
    intro ys t m h
    exact ⟨0, m, Matches.nil t, by simpa using h, by omega⟩
  | cons it xs ih =>
    intro ys t m h
    cases it with
    | lit c =>
      have h' : Matches (.lit c :: (xs ++ ys)) t m := h
      cases h' with
      | lit c2 rest2 x s n hx h2 =>
        rcases ih h2 with ⟨k, k2, ha, hb, rfl⟩
        refine ⟨k + 1, k2, Matches.lit c xs x s k hx ha, ?_, by omega⟩
        rw [List.drop_succ_cons]
        exact hb
    | plus p =>
      have h' : Matches (.plus p :: (xs ++ ys)) t m := h
      cases h' with
      | plus p2 rest2 s2 j n h1 h2 h3 h4 =>
        rcases ih h4 with ⟨k, k2, ha, hb, rfl⟩
        refine ⟨j + k, k2, Matches.plus p xs t j k h1 h2 h3 ha, ?_, by omega⟩
        rw [← List.drop_drop]
        exact hb
    | star p =>
      have h' : Matches (.star p :: (xs ++ ys)) t m := h
      cases h' with
      | star p2 rest2 s2 j n h2 h3 h4 =>
        rcases ih h4 with ⟨k, k2, ha, hb, rfl⟩
        refine ⟨j + k, k2, Matches.star p xs t j k h2 h3 ha, ?_, by omega⟩
        rw [← List.drop_drop]
        exact hb
    | lazyStar p =>
      have h' : Matches (.lazyStar p :: (xs ++ ys)) t m := h
      cases h' with
      | lazyStar p2 rest2 s2 j n h2 h3 h4 =>
        rcases ih h4 with ⟨k, k2, ha, hb, rfl⟩
        refine ⟨j + k, k2, Matches.lazyStar p xs t j k h2 h3 ha, ?_, by omega⟩
        rw [← List.drop_drop]
        exact hb

theorem matchItems_sound : ∀ (pat : List RItem) (s : List Char) (n : Nat),
    matchItems pat s = some n → Matches pat s n := by
  intro pat
  induction pat with
  | nil =>
    intro s n h
    simp only [matchItems, Option.some.injEq] at h
    rw [← h]
    exact Matches.nil s
  | cons it rest ih =>
    cases it with
    | lit c =>
      intro s n h
      cases s with
      | nil => simp [matchItems] at h
      | cons x s2 =>
        simp only [matchItems] at h
        split at h
        · rcases Option.map_eq_some'.1 h with ⟨n2, h2, rfl⟩
          exact Matches.lit c rest x s2 n2 (by assumption) (ih s2 n2 h2)
        · cases h
    | plus p =>
      intro s n h
      simp only [matchItems] at h
      rcases List.exists_of_findSome?_eq_some h with ⟨j, hj, hfj⟩
      rcases Option.map_eq_some'.1 hfj with ⟨n2, h2, rfl⟩
      have hjm : 1 ≤ j ∧ j < 1 + (s.takeWhile p).length := by
        simpa [downFrom, List.mem_reverse, List.mem_range'_1] using hj
      have hjtw : j ≤ (s.takeWhile p).length := by omega
      exact Matches.plus p rest s j n2 hjm.1
        (le_trans hjtw (List.takeWhile_sublist p).length_le)
        (take_all_of_le_takeWhile p s j hjtw) (ih _ n2 h2)
    | star p =>
      intro s n h
      simp only [matchItems] at h
      rcases List.exists_of_findSome?_eq_some h with ⟨j, hj, hfj⟩
      rcases Option.map_eq_some'.1 hfj with ⟨n2, h2, rfl⟩
      rcases List.mem_append.1 hj with hj1 | hj0
      · have hjm : 1 ≤ j ∧ j < 1 + (s.takeWhile p).length := by
          simpa [downFrom, List.mem_reverse, List.mem_range'_1] using hj1
        have hjtw : j ≤ (s.takeWhile p).length := by omega
        exact Matches.star p rest s j n2
          (le_trans hjtw (List.takeWhile_sublist p).length_le)
          (take_all_of_le_takeWhile p s j hjtw) (ih _ n2 h2)
      · have hj0' : j = 0 := by simpa using hj0
        subst hj0'
        exact Matches.star p rest s 0 n2 (Nat.zero_le _) (by simp) (ih _ n2 h2)
    | lazyStar p =>
      intro s n h
      simp only [matchItems] at h
      rcases List.exists_of_findSome?_eq_some h with ⟨j, hj, hfj⟩
      rcases Option.map_eq_some'.1 hfj with ⟨n2, h2, rfl⟩
      have hjm : j < (s.takeWhile p).length + 1 := by
        simpa [upTo, List.mem_range] using hj
      have hjtw : j ≤ (s.takeWhile p).length := by omega
      exact Matches.lazyStar p rest s j n2
        (le_trans hjtw (List.takeWhile_sublist p).length_le)
        (take_all_of_le_takeWhile p s j hjtw) (ih _ n2 h2)

theorem matchItems_complete : ∀ {pat : List RItem} {t : List Char} {m : Nat},
    Matches pat t m → (matchItems pat t).isSome = true := by
  intro pat t m h
  induction h with
  | nil s => simp [matchItems]
  | lit c rest x s n hx h2 ih =>
    simp only [matchItems]
    rw [if_pos hx]
    rcases Option.isSome_iff_exists.1 ih with ⟨n2, hn2⟩
    simp [hn2]
  | plus p rest s j n h1 h2 h3 h4 ih =>
    simp only [matchItems]
    rcases Option.isSome_iff_exists.1 ih with ⟨n2, hn2⟩
    refine findSome_isSome_of_mem _ _ j ?_ ?_
    · simp only [downFrom, List.mem_reverse, List.mem_range'_1]
      have := le_takeWhile_of_take_all p s j h2 h3
      omega
    · simp [hn2]
  | star p rest s j n h2 h3 h4 ih =>
    simp only [matchItems]
    rcases Option.isSome_iff_exists.1 ih with ⟨n2, hn2⟩
    refine findSome_isSome_of_mem _ _ j ?_ ?_
    · rcases Nat.eq_zero_or_pos j with rfl | hj
      · simp
      · refine List.mem_append_left _ ?_
        simp only [downFrom, List.mem_reverse, List.mem_range'_1]
        have := le_takeWhile_of_take_all p s j h2 h3
        omega
    · simp [hn2]
  | lazyStar p rest s j n h2 h3 h4 ih =>
    simp only [matchItems]
    rcases Option.isSome_iff_exists.1 ih with ⟨n2, hn2⟩
    refine findSome_isSome_of_mem _ _ j ?_ ?_
    · simp only [upTo, List.mem_range]
      have := le_takeWhile_of_take_all p s j h2 h3
      omega
    · simp [hn2]

theorem findMatch_none_all {pat : List RItem} :
    ∀ {s : List Char}, findMatch pat s = none → ∀ q, matchItems pat (s.drop q) = none := by
  intro s
  induction s with
  | nil =>
    intro h q
    rw [List.drop_nil]
    simpa [findMatch] using h
  | cons x s2 ih =>
    intro h q
    cases hm : matchItems pat (x :: s2) with
    | some n =>
      rw [show findMatch pat (x :: s2) = some (0, n) from by simp [findMatch, hm]] at h
      cases h
    | none =>
      have h2 : findMatch pat s2 = none := by
        rw [show findMatch pat (x :: s2) =
          (findMatch pat s2).map (fun qn => (qn.1 + 1, qn.2)) from by simp [findMatch, hm]] at h
        exact Option.map_eq_none'.1 h
      cases q with
      | zero => simpa using hm
      | succ q2 =>
        rw [List.drop_succ_cons]
        exact ih h2 q2

theorem findMatch_some_spec {pat : List RItem} :
    ∀ {s : List Char} {q n : Nat}, findMatch pat s = some (q, n) →
      q ≤ s.length ∧ matchItems pat (s.drop q) = some n ∧
        ∀ i, i < q → matchItems pat (s.drop i) = none := by
  intro s
  induction s with
  | nil =>
    intro q n h
    simp only [findMatch] at h
    rcases Option.map_eq_some'.1 h with ⟨n0, hn0, he⟩
    rw [Prod.mk.injEq] at he
    rcases he with ⟨he1, he2⟩
    refine ⟨by omega, ?_, ?_⟩
    · rw [List.drop_nil, ← he2]
      exact hn0
    · intro i hi
      omega
  | cons x s2 ih =>
    intro q n h
    cases hm : matchItems pat (x :: s2) with
    | some n0 =>
      rw [show findMatch pat (x :: s2) = some (0, n0) from by simp [findMatch, hm]] at h
      rw [Option.some.injEq, Prod.mk.injEq] at h
      rcases h with ⟨rfl, rfl⟩
      exact ⟨Nat.zero_le _, hm, fun i hi => absurd hi (Nat.not_lt_zero i)⟩
    | none =>
      rw [show findMatch pat (x :: s2) =
        (findMatch pat s2).map (fun qn => (qn.1 + 1, qn.2)) from by simp [findMatch, hm]] at h
      rcases Option.map_eq_some'.1 h with ⟨⟨q2, n2⟩, hf2, he⟩
      rw [Prod.mk.injEq] at he
      rcases he with ⟨rfl, rfl⟩
      rcases ih hf2 with ⟨ha, hb, hc⟩
      refine ⟨Nat.succ_le_succ ha, ?_, ?_⟩
      · rw [List.drop_succ_cons]
        exact hb
      · intro i hi
        cases i with
        | zero => simpa using hm
        | succ i2 =>
          rw [List.drop_succ_cons]
          exact hc i2 (by omega)

theorem matchItems_lit_pos {c : Char} {rest : List RItem} {s : List Char} {n : Nat}
    (h : matchItems (.lit c :: rest) s = some n) : 1 ≤ n := by
  cases s with
  | nil => simp [matchItems] at h
  | cons x s2 =>
    simp only [matchItems] at h
    split at h
    · rcases Option.map_eq_some'.1 h with ⟨n2, _, rfl⟩
      omega
    · cases h

theorem findMatch_lit_spec {c : Char} {rest : List RItem} {s : List Char} {q n : Nat}
    (h : findMatch (.lit c :: rest) s = some (q, n)) :
    1 ≤ n ∧ q + n ≤ s.length := by
  rcases findMatch_some_spec h with ⟨hq, hm, _⟩
  have h1 := matchItems_lit_pos hm
  have h2 := Matches_len (matchItems_sound _ _ _ hm)
  rw [List.length_drop] at h2
  exact ⟨h1, by omega⟩

theorem subFuel_fuel {c : Char} {rest : List RItem} {repl : List Char} :
    ∀ (N : Nat) (s : List Char), s.length ≤ N → ∀ f1 f2 : Nat,
      s.length + 1 ≤ f1 → s.length + 1 ≤ f2 →
      subFuel (.lit c :: rest) repl f1 s = subFuel (.lit c :: rest) repl f2 s := by
  intro N
  induction N with
  | zero =>
    intro s hs f1 f2 h1 h2
    have hs0 : s = [] := List.length_eq_zero.1 (by omega)
    subst hs0
    obtain ⟨g1, rfl⟩ : ∃ g, f1 = g + 1 := ⟨f1 - 1, by omega⟩
    obtain ⟨g2, rfl⟩ : ∃ g, f2 = g + 1 := ⟨f2 - 1, by omega⟩
    have hf : findMatch (.lit c :: rest) [] = none := by
      simp [findMatch, matchItems]
    simp [subFuel, hf]
  | succ N ih =>
    intro s hs f1 f2 h1 h2
    obtain ⟨g1, rfl⟩ : ∃ g, f1 = g + 1 := ⟨f1 - 1, by omega⟩
    obtain ⟨g2, rfl⟩ : ∃ g, f2 = g + 1 := ⟨f2 - 1, by omega⟩
    cases hf : findMatch (.lit c :: rest) s with
    | none => simp [subFuel, hf]
    | some qn =>
      obtain ⟨q, n⟩ := qn
      rcases findMatch_lit_spec hf with ⟨hn, hqn⟩
      simp only [subFuel, hf]
      refine congrArg (fun z => s.take q ++ repl ++ z) ?_
      refine ih (s.drop (q + n)) ?_ g1 g2 ?_ ?_ <;> rw [List.length_drop] <;> omega

theorem subAll_eq_of_some {c : Char} {rest : List RItem} {repl : List Char} {s : List Char}
    {q n : Nat} (hf : findMatch (.lit c :: rest) s = some (q, n)) :
    subAll (.lit c :: rest) repl s =
      s.take q ++ repl ++ subAll (.lit c :: rest) repl (s.drop (q + n)) := by
  rcases findMatch_lit_spec hf with ⟨hn, hqn⟩
  show subFuel (.lit c :: rest) repl (s.length + 1) s = _
  simp only [subFuel, hf]
  refine congrArg (fun z => s.take q ++ repl ++ z) ?_
  show subFuel _ repl s.length _ = subFuel _ repl ((s.drop (q + n)).length + 1) _
  refine subFuel_fuel (s.drop (q + n)).length (s.drop (q + n)) (le_refl _) _ _ ?_ ?_ <;>
    rw [List.length_drop] <;> omega

theorem subAll_eq_of_none {pat : List RItem} {repl : List Char} {s : List Char}
    (hf : findMatch pat s = none) : subAll pat repl s = s := by
  show subFuel pat repl (s.length + 1) s = s
  simp [subFuel, hf]

theorem countAll_eq_zero_iff {pat : List RItem} {s : List Char} :
    countAll pat s = 0 ↔ findMatch pat s = none := by
  constructor
  · intro h
    cases hf : findMatch pat s with
    | none => rfl
    | some qn =>
      obtain ⟨q, n⟩ := qn
      rw [show countAll pat s = 1 + countFuel pat s.length (s.drop (q + n)) from by
        show countFuel pat (s.length + 1) s = _
        simp [countFuel, hf]] at h
      omega
  · intro hf
    show countFuel pat (s.length + 1) s = 0
    simp [countFuel, hf]

theorem noMatch_findMatch_none {pat : List RItem} {s : List Char}
    (h : noMatchAnywhere pat s) : findMatch pat s = none := by
  cases hf : findMatch pat s with
  | none => rfl
  | some qn =>
    obtain ⟨q, n⟩ := qn
    exact absurd (matchItems_sound _ _ _ (findMatch_some_spec hf).2.1) (h q n)

theorem findMatch_none_noMatch {pat : List RItem} {s : List Char}
    (h : findMatch pat s = none) : noMatchAnywhere pat s := by
  intro q n hM
  have h2 := matchItems_complete hM
  rw [findMatch_none_all h q] at h2
  cases h2

theorem Matches_lit_single_inv {c : Char} {t : List Char} {n : Nat}
    (h : Matches [.lit c] t n) : ∃ s, t = c :: s ∧ n = 1 := by
  cases h with
  | lit c2 rest2 x s n2 hx h2 =>
    cases h2 with
    | nil s3 => exact ⟨s, by rw [hx], rfl⟩

theorem Matches_plus_cons_inv {p : Char → Bool} {rest : List RItem} {t : List Char} {m : Nat}
    (h : Matches (.plus p :: rest) t m) :
    ∃ j n, 1 ≤ j ∧ j ≤ t.length ∧ (t.take j).all p = true ∧
      Matches rest (t.drop j) n ∧ m = j + n := by
  cases h with
  | plus p2 rest2 s2 j n h1 h2 h3 h4 => exact ⟨j, n, h1, h2, h3, h4, rfl⟩

theorem Matches_litRun_intro (w : List Char) {rest : List RItem} {s : List Char} {m : Nat}
    (h : Matches rest s m) : Matches (litRun w ++ rest) (w ++ s) (w.length + m) := by
  induction w with
  | nil => simpa using h
  | cons c w ih =>
    have h2 := Matches.lit c (litRun w ++ rest) c (w ++ s) (w.length + m) rfl ih
    rw [show (c :: w).length + m = w.length + m + 1 from by simp only [List.length_cons]; omega]
    exact h2

theorem P4_inv {t : List Char} {m : Nat} (h : Matches P4 t m) :
    ∃ u v, u ≠ [] ∧ u.all (fun c => !(c = ')')) = true ∧
      t = "Bash(".data ++ u ++ ')' :: v ∧ m = u.length + 6 := by
  rw [show P4 = litRun "Bash(".data ++ ([.plus (fun c => !(c = ')'))] ++ [.lit ')']) from by
    simp [P4, List.append_assoc]] at h
  rcases Matches_litRun_take "Bash(".data h with ⟨htake, m2, hm2, hme⟩
  have hm2' : Matches (.plus (fun c => !(c = ')')) :: [.lit ')'])
      (t.drop "Bash(".data.length) m2 := hm2
  rcases Matches_plus_cons_inv hm2' with ⟨j, n2, hj1, hj2, hall, hlit, hm2e⟩
  rcases Matches_lit_single_inv hlit with ⟨s3, hs3, hn2⟩
  have hlen : ((t.drop "Bash(".data.length).take j).length = j := by
    rw [List.length_take]; omega
  refine ⟨(t.drop "Bash(".data.length).take j, s3, ?_, hall, ?_, ?_⟩
  · intro hnil
    rw [hnil] at hlen
    simp at hlen
    omega
  · conv_lhs => rw [← List.take_append_drop ("Bash(".data.length) t]
    rw [htake, List.append_assoc]
    congr 1
    conv_lhs => rw [← List.take_append_drop j (t.drop "Bash(".data.length)]
    rw [hs3]
  · rw [hlen]
    rw [show ("Bash(".data.length) = 5 from rfl] at hme
    omega

theorem P4_intro (u v : List Char) (hne : u ≠ [])
    (hall : u.all (fun c => !(c = ')')) = true) :
    Matches P4 ("Bash(".data ++ u ++ ')' :: v) (u.length + 6) := by
  rw [show P4 = litRun "Bash(".data ++ ([.plus (fun c => !(c = ')'))] ++ [.lit ')']) from by
    simp [P4, List.append_assoc]]
  have hlit : Matches [.lit ')'] (')' :: v) 1 :=
    Matches.lit ')' [] ')' v 0 rfl (Matches.nil v)
  have hplus : Matches (.plus (fun c => !(c = ')')) :: [.lit ')'])
      (u ++ ')' :: v) (u.length + 1) := by
    refine Matches.plus _ [.lit ')'] (u ++ ')' :: v) u.length 1 ?_ ?_ ?_ ?_
    · exact List.length_pos.2 hne
    · rw [List.length_append]; omega
    · rw [List.take_left]; exact hall
    · rw [List.drop_left]; exact hlit
  have h2 := Matches_litRun_intro "Bash(".data hplus
  rw [show u.length + 6 = "Bash(".data.length + (u.length + 1) from by
    rw [show ("Bash(".data.length) = 5 from rfl]; omega]
  rw [List.append_assoc]
  exact h2

theorem P3_assoc :
    P3 = litRun "mcp__".data ++ ([.plus isW] ++ (litRun "__".data ++ [.plus isW])) := by
  simp [P3, List.append_assoc]

theorem P3_classW : ∀ it ∈ P3, classW it := by
  intro it hit
  have e : P3 = [.lit 'm', .lit 'c', .lit 'p', .lit '_', .lit '_', .plus isW,
      .lit '_', .lit '_', .plus isW] := rfl
  rw [e] at hit
  simp only [List.mem_cons, List.not_mem_nil, or_false] at hit
  rcases hit with rfl | rfl | rfl | rfl | rfl | rfl | rfl | rfl | rfl
  · exact (by decide : isW 'm' = true)
  · exact (by decide : isW 'c' = true)
  · exact (by decide : isW 'p' = true)
  · exact (by decide : isW '_' = true)
  · exact (by decide : isW '_' = true)
  · exact fun c hc => hc
  · exact (by decide : isW '_' = true)
  · exact (by decide : isW '_' = true)
  · exact fun c hc => hc

theorem P3_starts {t : List Char} {m : Nat} (h : Matches P3 t m) : "mcp__".data <+: t := by
  rw [P3_assoc] at h
  exact prefix_of_take_eq (Matches_litRun_take "mcp__".data h).1

theorem P4_starts {t : List Char} {m : Nat} (h : Matches P4 t m) : "Bash(".data <+: t := by
  rw [show P4 = litRun "Bash(".data ++ ([.plus (fun c => !(c = ')'))] ++ [.lit ')']) from by
    simp [P4, List.append_assoc]] at h
  exact prefix_of_take_eq (Matches_litRun_take "Bash(".data h).1

theorem drop_append3 (A B C : List Char) (i : Nat) :
    (∃ j, j < A.length ∧ (A ++ (B ++ C)).drop i = A.drop j ++ (B ++ C)) ∨
    (∃ t, t <:+ B ∧ t ≠ [] ∧ (A ++ (B ++ C)).drop i = t ++ C) ∨
    (∃ k, (A ++ (B ++ C)).drop i = C.drop k) := by
  rcases Nat.lt_or_ge i A.length with h | h
  · exact Or.inl ⟨i, h, List.drop_append_of_le_length (Nat.le_of_lt h)⟩
  · have e1 : (A ++ (B ++ C)).drop i = (B ++ C).drop (i - A.length) := by
      rw [List.drop_append_eq_append_drop, List.drop_eq_nil_of_le h, List.nil_append]
    rcases Nat.lt_or_ge (i - A.length) B.length with h2 | h2
    · refine Or.inr (Or.inl ⟨B.drop (i - A.length), List.drop_suffix _ _, ?_, ?_⟩)
      · intro hnil
        have h3 := congrArg List.length hnil
        rw [List.length_drop] at h3
        simp at h3
        omega
      · rw [e1, List.drop_append_of_le_length (Nat.le_of_lt h2)]
    · refine Or.inr (Or.inr ⟨i - A.length - B.length, ?_⟩)
      rw [e1, List.drop_append_eq_append_drop, List.drop_eq_nil_of_le h2, List.nil_append]

theorem cons_prefix_append_left {a : Char} {l t C : List Char}
    (h : a :: l <+: t ++ C) (hne : t ≠ []) : ∃ t2, t = a :: t2 := by
  cases t with
  | nil => exact absurd rfl hne
  | cons b bs =>
    rw [List.cons_append, List.cons_prefix_cons] at h
    exact ⟨bs, by rw [h.1]⟩

theorem mcpTool_tails_m : ∀ t ∈ "[MCP tool]".data.tails, chStarts "m".data t = false := by
  decide

theorem cliCmd_tails_B : ∀ t ∈ "[CLI command]".data.tails, chStarts "B".data t = false := by
  decide

theorem cliCmd_tails_mc : ∀ t ∈ "[CLI command]".data.tails, chStarts "mc".data t = false := by
  decide

theorem cliCmd_tails_len1 : ∀ t ∈ "[CLI command]".data.tails, t.length = 1 →
    chStarts "m".data t = false := by
  decide

theorem P3_cons : P3 = RItem.lit 'm' :: [.lit 'c', .lit 'p', .lit '_', .lit '_', .plus isW,
    .lit '_', .lit '_', .plus isW] := rfl

theorem P4_cons : P4 = RItem.lit 'B' :: [.lit 'a', .lit 's', .lit 'h', .lit '(',
    .plus (fun c => !(c = ')')), .lit ')'] := rfl

theorem findMatch_P3_pos {s : List Char} {q n : Nat} (hf : findMatch P3 s = some (q, n)) :
    1 ≤ n ∧ q + n ≤ s.length := by
  rw [P3_cons] at hf
  exact findMatch_lit_spec hf

theorem findMatch_P4_pos {s : List Char} {q n : Nat} (hf : findMatch P4 s = some (q, n)) :
    1 ≤ n ∧ q + n ≤ s.length := by
  rw [P4_cons] at hf
  exact findMatch_lit_spec hf

theorem subAll_P3_some {repl s : List Char} {q n : Nat}
    (hf : findMatch P3 s = some (q, n)) :
    subAll P3 repl s = s.take q ++ repl ++ subAll P3 repl (s.drop (q + n)) := by
  rw [P3_cons] at hf ⊢
  exact subAll_eq_of_some hf

theorem subAll_P4_some {repl s : List Char} {q n : Nat}
    (hf : findMatch P4 s = some (q, n)) :
    subAll P4 repl s = s.take q ++ repl ++ subAll P4 repl (s.drop (q + n)) := by
  rw [P4_cons] at hf ⊢
  exact subAll_eq_of_some hf

theorem noMatch_P3_sub_aux : ∀ (N : Nat) (s : List Char), s.length ≤ N →
    noMatchAnywhere P3 (subAll P3 "[MCP tool]".data s) := by
  intro N
  induction N with
  | zero =>
    intro s hs
    have hs0 : s = [] := List.length_eq_zero.1 (by omega)
    subst hs0
    have hf : findMatch P3 [] = none := by decide
    rw [subAll_eq_of_none hf]
    exact findMatch_none_noMatch hf
  | succ N ih =>
    intro s hs
    cases hf : findMatch P3 s with
    | none =>
      rw [subAll_eq_of_none hf]
      exact findMatch_none_noMatch hf
    | some qn =>
      obtain ⟨q, n⟩ := qn
      rcases findMatch_some_spec hf with ⟨hq, hmq, hmin⟩
      rcases findMatch_P3_pos hf with ⟨hn1, hqn⟩
      have hC0 := ih (s.drop (q + n)) (by rw [List.length_drop]; omega)
      rw [subAll_P3_some hf]
      obtain ⟨C, hCg⟩ : ∃ C2, subAll P3 "[MCP tool]".data (s.drop (q + n)) = C2 := ⟨_, rfl⟩
      rw [hCg] at hC0 ⊢
      intro i m hM
      rw [List.append_assoc] at hM
      rcases drop_append3 (s.take q) "[MCP tool]".data C i with
        ⟨j, hj, he⟩ | ⟨t, ht, htne, he⟩ | ⟨k, he⟩
      · rw [he] at hM
        have hjq : j < q := by
          rw [List.length_take] at hj; omega
        have hAl : ((s.take q).drop j).length = q - j := by
          rw [List.length_drop, List.length_take]; omega
        rcases Nat.lt_or_ge (q - j) m with hmgt | hmle
        case inr =>
          have htk : ((s.take q).drop j ++ ("[MCP tool]".data ++ C)).take m
              = (s.drop j).take m := by
            rw [List.take_append_of_le_length (by omega), List.drop_take, List.take_take,
              min_eq_left hmle]
          have h4 := matchItems_complete (Matches_of_take_eq hM htk)
          rw [hmin j hjq] at h4
          cases h4
        case inl =>
          have hbr : '[' ∈ (((s.take q).drop j ++ ("[MCP tool]".data ++ C)).take m) := by
            rw [List.take_append_eq_append_take]
            refine List.mem_append_right _ ?_
            obtain ⟨k2, hk2⟩ : ∃ k2, m - ((s.take q).drop j).length = k2 + 1 :=
              ⟨m - ((s.take q).drop j).length - 1, by omega⟩
            rw [hk2]
            show '[' ∈ ('[' :: ("MCP tool]".data ++ C)).take (k2 + 1)
            rw [List.take_succ_cons]
            exact List.mem_cons_self _ _
          exact absurd (Matches_classW hM P3_classW '[' hbr) (by decide)
      · rw [he] at hM
        have hpre1 : 'm' :: "cp__".data <+: t ++ C := P3_starts hM
        rcases cons_prefix_append_left hpre1 htne with ⟨t2, rfl⟩
        have hch : chStarts "m".data ('m' :: t2) = true := by simp [chStarts]
        rw [mcpTool_tails_m ('m' :: t2) ((List.mem_tails _ _).2 ht)] at hch
        cases hch
      · rw [he] at hM
        exact hC0 k m hM

theorem noMatch_P3_subAll (s : List Char) :
    noMatchAnywhere P3 (subAll P3 "[MCP tool]".data s) :=
  noMatch_P3_sub_aux s.length s (le_refl _)

theorem noMatch_P3_P4sub_aux : ∀ (N : Nat) (s : List Char), s.length ≤ N →
    noMatchAnywhere P3 s → noMatchAnywhere P3 (subAll P4 "[CLI command]".data s) := by
  intro N
  induction N with
  | zero =>
    intro s hs hS
    have hs0 : s = [] := List.length_eq_zero.1 (by omega)
    subst hs0
    have hf : findMatch P4 [] = none := by decide
    rw [subAll_eq_of_none hf]
    exact hS
  | succ N ih =>
    intro s hs hS
    cases hf : findMatch P4 s with
    | none =>
      rw [subAll_eq_of_none hf]
      exact hS
    | some qn =>
      obtain ⟨q, n⟩ := qn
      rcases findMatch_some_spec hf with ⟨hq, hmq, hmin⟩
      rcases findMatch_P4_pos hf with ⟨hn1, hqn⟩
      have hS2 : noMatchAnywhere P3 (s.drop (q + n)) := by
        intro q2 n2 hM2
        rw [List.drop_drop] at hM2
        exact hS (q + n + q2) n2 hM2
      have hC0 := ih (s.drop (q + n)) (by rw [List.length_drop]; omega) hS2
      rw [subAll_P4_some hf]
      obtain ⟨C, hCg⟩ : ∃ C2, subAll P4 "[CLI command]".data (s.drop (q + n)) = C2 := ⟨_, rfl⟩
      rw [hCg] at hC0 ⊢
      intro i m hM
      rw [List.append_assoc] at hM
      rcases drop_append3 (s.take q) "[CLI command]".data C i with
        ⟨j, hj, he⟩ | ⟨t, ht, htne, he⟩ | ⟨k, he⟩
      · rw [he] at hM
        have hjq : j < q := by
          rw [List.length_take] at hj; omega
        have hAl : ((s.take q).drop j).length = q - j := by
          rw [List.length_drop, List.length_take]; omega
        rcases Nat.lt_or_ge (q - j) m with hmgt | hmle
        case inr =>
          have htk : ((s.take q).drop j ++ ("[CLI command]".data ++ C)).take m
              = (s.drop j).take m := by
            rw [List.take_append_of_le_length (by omega), List.drop_take, List.take_take,
              min_eq_left hmle]
          exact hS j m (Matches_of_take_eq hM htk)
        case inl =>
          have hbr : '[' ∈ (((s.take q).drop j ++ ("[CLI command]".data ++ C)).take m) := by
            rw [List.take_append_eq_append_take]
            refine List.mem_append_right _ ?_
            obtain ⟨k2, hk2⟩ : ∃ k2, m - ((s.take q).drop j).length = k2 + 1 :=
              ⟨m - ((s.take q).drop j).length - 1, by omega⟩
            rw [hk2]
            show '[' ∈ ('[' :: ("CLI command]".data ++ C)).take (k2 + 1)
            rw [List.take_succ_cons]
            exact List.mem_cons_self _ _
          exact absurd (Matches_classW hM P3_classW '[' hbr) (by decide)
      · rw [he] at hM
        have hpre : "mcp__".data <+: t ++ C := P3_starts hM
        rcases Nat.lt_or_ge t.length 2 with hlt | hge
        · have hl1 : t.length = 1 := by
            have := List.length_pos.2 htne
            omega
          have hpre1 : 'm' :: "cp__".data <+: t ++ C := hpre
          rcases cons_prefix_append_left hpre1 htne with ⟨t2, rfl⟩
          have hch : chStarts "m".data ('m' :: t2) = true := by simp [chStarts]
          rw [cliCmd_tails_len1 ('m' :: t2) ((List.mem_tails _ _).2 ht) hl1] at hch
          cases hch
        · have hmc : 'm' :: 'c' :: [] <+: t ++ C :=
            List.IsPrefix.trans (by decide : ('m' :: 'c' :: []) <+: "mcp__".data) hpre
          have hmct : 'm' :: 'c' :: [] <+: t :=
            List.prefix_of_prefix_length_le hmc (List.prefix_append t C) (by simpa using hge)
          have hch : chStarts "mc".data t = true := (chStarts_iff "mc".data t).2 hmct
          rw [cliCmd_tails_mc t ((List.mem_tails _ _).2 ht)] at hch
          cases hch
      · rw [he] at hM
        exact hC0 k m hM

theorem noMatch_P3_P4sub (s : List Char) (hS : noMatchAnywhere P3 s) :
    noMatchAnywhere P3 (subAll P4 "[CLI command]".data s) :=
  noMatch_P3_P4sub_aux s.length s (le_refl _) hS

theorem noMatch_P4_sub_aux : ∀ (N : Nat) (s : List Char), s.length ≤ N →
    noMatchAnywhere P4 (subAll P4 "[CLI command]".data s) := by
  intro N
  induction N with
  | zero =>
    intro s hs
    have hs0 : s = [] := List.length_eq_zero.1 (by omega)
    subst hs0
    have hf : findMatch P4 [] = none := by decide
    rw [subAll_eq_of_none hf]
    exact findMatch_none_noMatch hf
  | succ N ih =>
    intro s hs
    cases hf : findMatch P4 s with
    | none =>
      rw [subAll_eq_of_none hf]
      exact findMatch_none_noMatch hf
    | some qn =>
      obtain ⟨q, n⟩ := qn
      rcases findMatch_some_spec hf with ⟨hq, hmq, hmin⟩
      rcases findMatch_P4_pos hf with ⟨hn1, hqn⟩
      rcases P4_inv (matchItems_sound _ _ _ hmq) with ⟨us, vs, husne, husall, hsq, hnus⟩
      have hC0 := ih (s.drop (q + n)) (by rw [List.length_drop]; omega)
      rw [subAll_P4_some hf]
      obtain ⟨C, hCg⟩ : ∃ C2, subAll P4 "[CLI command]".data (s.drop (q + n)) = C2 := ⟨_, rfl⟩
      rw [hCg] at hC0 ⊢
      intro i m hM
      rw [List.append_assoc] at hM
      rcases drop_append3 (s.take q) "[CLI command]".data C i with
        ⟨j, hj, he⟩ | ⟨t, ht, htne, he⟩ | ⟨k, he⟩
      · rw [he] at hM
        have hjq : j < q := by
          rw [List.length_take] at hj; omega
        have hAl : ((s.take q).drop j).length = q - j := by
          rw [List.length_drop, List.length_take]; omega
        rcases Nat.lt_or_ge (q - j) m with hmgt | hmle
        case inr =>
          have htk : ((s.take q).drop j ++ ("[CLI command]".data ++ C)).take m
              = (s.drop j).take m := by
            rw [List.take_append_of_le_length (by omega), List.drop_take, List.take_take,
              min_eq_left hmle]
          have h4 := matchItems_complete (Matches_of_take_eq hM htk)
          rw [hmin j hjq] at h4
          cases h4
        case inl =>
          rcases P4_inv hM with ⟨u, v, hune, huall, htu, hmu⟩
          rcases Nat.lt_or_ge (q - j) 5 with h5lt | h5ge
          · have h1 : ((s.take q).drop j ++ ("[CLI command]".data ++ C)).take 5
                = "Bash(".data := by
              rw [htu, List.append_assoc,
                List.take_append_of_le_length (by decide : 5 ≤ "Bash(".data.length),
                List.take_of_length_le (by decide : "Bash(".data.length ≤ 5)]
            have hbr : '[' ∈ (((s.take q).drop j ++ ("[CLI command]".data ++ C)).take 5) := by
              rw [List.take_append_eq_append_take]
              refine List.mem_append_right _ ?_
              obtain ⟨k2, hk2⟩ : ∃ k2, 5 - ((s.take q).drop j).length = k2 + 1 :=
                ⟨5 - ((s.take q).drop j).length - 1, by omega⟩
              rw [hk2]
              show '[' ∈ ('[' :: ("CLI command]".data ++ C)).take (k2 + 1)
              rw [List.take_succ_cons]
              exact List.mem_cons_self _ _
            rw [h1] at hbr
            exact absurd hbr (by decide)
          · have hpre0 : "Bash(".data <+: (s.take q).drop j ++ ("[CLI command]".data ++ C) :=
              P4_starts hM
            have hXpre : "Bash(".data <+: (s.take q).drop j := by
              refine List.prefix_of_prefix_length_le hpre0 (List.prefix_append _ _) ?_
              rw [hAl, show ("Bash(".data.length) = 5 from rfl]
              omega
            rcases hXpre with ⟨w, hw⟩
            have hlw : w.length = q - j - 5 := by
              have h2 := congrArg List.length hw
              rw [List.length_append, hAl, show ("Bash(".data.length) = 5 from rfl] at h2
              omega
            have he2 : u ++ ')' :: v = w ++ ("[CLI command]".data ++ C) := by
              have h3 : "Bash(".data ++ (u ++ ')' :: v) =
                  "Bash(".data ++ (w ++ ("[CLI command]".data ++ C)) := by
                calc "Bash(".data ++ (u ++ ')' :: v)
                  = "Bash(".data ++ u ++ ')' :: v := (List.append_assoc _ _ _).symm
                _ = (s.take q).drop j ++ ("[CLI command]".data ++ C) := htu.symm
                _ = ("Bash(".data ++ w) ++ ("[CLI command]".data ++ C) := by rw [hw]
                _ = "Bash(".data ++ (w ++ ("[CLI command]".data ++ C)) :=
                    List.append_assoc _ _ _
              exact List.append_cancel_left h3
            have hw3 : w <+: u ++ ')' :: v := by
              rw [he2]
              exact List.prefix_append _ _
            have hwu : w <+: u :=
              List.prefix_of_prefix_length_le hw3 (List.prefix_append _ _)
                (by rw [hlw]; omega)
            have hwall : w.all (fun c => !(c = ')')) = true := by
              rw [List.all_eq_true]
              intro c hc
              exact List.all_eq_true.1 huall c (hwu.sublist.subset hc)
            have e3 : s.drop j = (s.take q).drop j ++ s.drop q := by
              conv_lhs => rw [← List.take_append_drop q s]
              rw [List.drop_append_of_le_length (by rw [List.length_take]; omega)]
            have hsplit : s.drop j =
                "Bash(".data ++ (w ++ ("Bash(".data ++ us)) ++ ')' :: vs := by
              rw [e3, ← hw, hsq]
              simp [List.append_assoc]
            have hne2 : (w ++ ("Bash(".data ++ us)) ≠ [] := by
              intro h0
              have h2 := congrArg List.length h0
              rw [List.length_append, List.length_append,
                show ("Bash(".data.length) = 5 from rfl] at h2
              simp at h2
            have hall2 : (w ++ ("Bash(".data ++ us)).all (fun c => !(c = ')')) = true := by
              rw [List.all_append, List.all_append, hwall, husall,
                show ("Bash(".data.all (fun c => !(c = ')'))) = true from by decide]
              rfl
            have hMj : Matches P4 (s.drop j) ((w ++ ("Bash(".data ++ us)).length + 6) := by
              rw [hsplit]
              exact P4_intro _ vs hne2 hall2
            have h4 := matchItems_complete hMj
            rw [hmin j hjq] at h4
            cases h4
      · rw [he] at hM
        have hpre1 : 'B' :: "ash(".data <+: t ++ C := P4_starts hM
        rcases cons_prefix_append_left hpre1 htne with ⟨t2, rfl⟩
        have hch : chStarts "B".data ('B' :: t2) = true := by simp [chStarts]
        rw [cliCmd_tails_B ('B' :: t2) ((List.mem_tails _ _).2 ht)] at hch
        cases hch
      · rw [he] at hM
        exact hC0 k m hM

theorem noMatch_P4_subAll (s : List Char) :
    noMatchAnywhere P4 (subAll P4 "[CLI command]".data s) :=
  noMatch_P4_sub_aux s.length s (le_refl _)

theorem P2_has_P3 {t : List Char} {m : Nat} (h : Matches P2 t m) :
    ∃ k, Matches P3 t k := by
  rw [show P2 = P3 ++ ([.lit '('] ++ ([.star (fun c => !(c = ')'))] ++ [.lit ')'])) from by
    simp [P2, List.append_assoc]] at h
  rcases Matches_append_split P3 h with ⟨k, k2, ha, _, _⟩
  exact ⟨k, ha⟩

theorem P1_has_P3 {t : List Char} {m : Nat} (h : Matches P1 t m) :
    ∃ k, Matches P3 (t.drop 1) k := by
  rw [show P1 = [RItem.lit btick] ++ (P2 ++ [.lit btick]) from by
    simp [P1, List.append_assoc]] at h
  rcases Matches_append_split [RItem.lit btick] h with ⟨k1, k2, ha, hb, hme⟩
  rcases Matches_lit_single_inv ha with ⟨s1, ht1, hk1⟩
  subst hk1
  rcases Matches_append_split P2 hb with ⟨k3, k4, hc, _, _⟩
  exact P2_has_P3 hc

theorem noMatch_P1_of_P3 {s : List Char} (h : noMatchAnywhere P3 s) :
    noMatchAnywhere P1 s := by
  intro q m hM
  rcases P1_has_P3 hM with ⟨k, hk⟩
  rw [List.drop_drop] at hk
  exact h (q + 1) k hk

theorem noMatch_P2_of_P3 {s : List Char} (h : noMatchAnywhere P3 s) :
    noMatchAnywhere P2 s := by
  intro q m hM
  rcases P2_has_P3 hM with ⟨k, hk⟩
  exact h q k hk

theorem foldl_clean_fst : ∀ (cps : List CCPat) (acc : List Char × List Change),
    (cps.foldl
      (fun acc cp =>
        let n := countAll cp.pat acc.1
        if n ≠ 0 then
          (subAll cp.pat cp.repl.data acc.1, acc.2 ++ [Change.replacedPattern n cp.src])
        else acc) acc).1 =
    cps.foldl (fun s cp => if countAll cp.pat s ≠ 0 then subAll cp.pat cp.repl.data s else s)
      acc.1 := by
  intro cps
  induction cps with
  | nil => intro acc; rfl
  | cons cp rest ih =>
    intro acc
    rw [List.foldl_cons, List.foldl_cons, ih]
    congr 1
    show (if countAll cp.pat acc.1 ≠ 0 then
        (subAll cp.pat cp.repl.data acc.1,
          acc.2 ++ [Change.replacedPattern (countAll cp.pat acc.1) cp.src])
      else acc).1 =
      if countAll cp.pat acc.1 ≠ 0 then subAll cp.pat cp.repl.data acc.1 else acc.1
    split
    · rfl
    · rfl

theorem applyRemovals_fst (content : List Char) :
    (applyRemovals content).1 =
      CC_PATTERNS.foldl
        (fun s cp => if countAll cp.pat s ≠ 0 then subAll cp.pat cp.repl.data s else s)
        content :=
  foldl_clean_fst CC_PATTERNS (content, [])

theorem cleaned_noMatch (s2 : List Char) :
    noMatchAnywhere P3
      (if countAll P4 (if countAll P3 s2 ≠ 0 then subAll P3 "[MCP tool]".data s2 else s2) ≠ 0
       then subAll P4 "[CLI command]".data
         (if countAll P3 s2 ≠ 0 then subAll P3 "[MCP tool]".data s2 else s2)
       else (if countAll P3 s2 ≠ 0 then subAll P3 "[MCP tool]".data s2 else s2)) ∧
    noMatchAnywhere P4
      (if countAll P4 (if countAll P3 s2 ≠ 0 then subAll P3 "[MCP tool]".data s2 else s2) ≠ 0
       then subAll P4 "[CLI command]".data
         (if countAll P3 s2 ≠ 0 then subAll P3 "[MCP tool]".data s2 else s2)
       else (if countAll P3 s2 ≠ 0 then subAll P3 "[MCP tool]".data s2 else s2)) := by
  obtain ⟨s3, hs3⟩ : ∃ s3,
      (if countAll P3 s2 ≠ 0 then subAll P3 "[MCP tool]".data s2 else s2) = s3 := ⟨_, rfl⟩
  rw [hs3]
  have h3 : noMatchAnywhere P3 s3 := by
    rw [← hs3]
    split
    · exact noMatch_P3_subAll s2
    · next h => exact findMatch_none_noMatch (countAll_eq_zero_iff.1 (not_ne_iff.1 h))
  split
  · exact ⟨noMatch_P3_P4sub s3 h3, noMatch_P4_subAll s3⟩
  · next h =>
    exact ⟨h3, findMatch_none_noMatch (countAll_eq_zero_iff.1 (not_ne_iff.1 h))⟩

/-- Claim C6: body cleaning is idempotent — after one pass of the ordered
removal rules, no removal pattern matches the cleaned body anywhere, so a
second pass returns the same string unchanged and records no further
change-log entries. -/
theorem C6_removal_idempotent (b : List Char) :
    (∀ cp ∈ CC_PATTERNS, countAll cp.pat (applyRemovals b).1 = 0) ∧
    applyRemovals (applyRemovals b).1 = ((applyRemovals b).1, []) := by
  have h34 : noMatchAnywhere P3 (applyRemovals b).1 ∧
      noMatchAnywhere P4 (applyRemovals b).1 := by
    rw [applyRemovals_fst]
    simp only [CC_PATTERNS, List.foldl_cons, List.foldl_nil]
    exact cleaned_noMatch _
  have hz1 : countAll P1 (applyRemovals b).1 = 0 :=
    countAll_eq_zero_iff.2 (noMatch_findMatch_none (noMatch_P1_of_P3 h34.1))
  have hz2 : countAll P2 (applyRemovals b).1 = 0 :=
    countAll_eq_zero_iff.2 (noMatch_findMatch_none (noMatch_P2_of_P3 h34.1))
  have hz3 : countAll P3 (applyRemovals b).1 = 0 :=
    countAll_eq_zero_iff.2 (noMatch_findMatch_none h34.1)
  have hz4 : countAll P4 (applyRemovals b).1 = 0 :=
    countAll_eq_zero_iff.2 (noMatch_findMatch_none h34.2)
  constructor
  · intro cp hcp
    simp only [CC_PATTERNS, List.mem_cons, List.not_mem_nil, or_false] at hcp
    rcases hcp with rfl | rfl | rfl | rfl
    · exact hz1
    · exact hz2
    · exact hz3
    · exact hz4
  · obtain ⟨c, hc⟩ : ∃ c, (applyRemovals b).1 = c := ⟨_, rfl⟩
    rw [hc] at hz1 hz2 hz3 hz4 ⊢
    simp [applyRemovals, CC_PATTERNS, hz1, hz2, hz3, hz4]

/-- Witness for C6 at a concrete body containing instances of the removal
patterns. -/
theorem C6_witness :
    countAll P3 (applyRemovals "Use mcp__git__status() and Bash(ls) now".data).1 = 0 ∧
    applyRemovals (applyRemovals "Use mcp__git__status() and Bash(ls) now".data).1 =
      ((applyRemovals "Use mcp__git__status() and Bash(ls) now".data).1, []) :=
  ⟨(C6_removal_idempotent "Use mcp__git__status() and Bash(ls) now".data).1
      ⟨P3, "mcp__\\w+__\\w+", "[MCP tool]"⟩
      (List.mem_cons_of_mem _ (List.mem_cons_of_mem _ (List.mem_cons_self _ _))),
    (C6_removal_idempotent "Use mcp__git__status() and Bash(ls) now".data).2⟩
